import Mathlib

/-!
Verification of the `cuckoo` package (cuckoofilter.go): a cuckoo filter with
4-slot buckets, 1-byte fingerprints (sentinel empty value 0), XOR-based
alternate indices, bounded eviction (500 kicks), and a flat byte encoding.

Only `cuckoofilter.go` is available; the bucket operations and the hash layer
(`bucket.go` / `util.go`) are referenced there but their source is not part of
the repository snapshot, so they are modelled from the specification; each such
definition carries a doc comment starting with `Modelled from the spec:`.

Bytes are modelled as `Nat`, fingerprints as `Nat` (value `0` is the sentinel
empty slot), a bucket as a `List Nat` (length 4 in every reachable state), and
`[]byte` data as `List Nat`.  The process-wide random source is modelled by
explicit arguments: a `Bool` for the `randi` tie-break and a stream
`Nat → Nat` for the evicted-slot choices.
-/

namespace Cuckoo

/-- Modelled from the spec: `bucketSize` is declared in the missing
`bucket.go`; the spec fixes buckets to exactly 4 fingerprint slots, and
`Decode` in `cuckoofilter.go` hard-codes the same constant 4. -/
def bucketSize : Nat := 4

/-- Source constant `maxCuckooCount = 500` in cuckoofilter.go. -/
def maxCuckooCount : Nat := 500

/-- Modelled from the spec: the sentinel empty fingerprint value (byte 0). -/
def nullFp : Nat := 0

/-- Modelled from the spec: `bucket.insert(fp)` (missing `bucket.go`) stores
`fp` in the first sentinel-empty slot and reports success, or reports failure
when all slots are occupied.  Returns the success flag and the new bucket. -/
def bucketInsert : List Nat → Nat → Bool × List Nat
  | [], _ => (false, [])
  | s :: rest, fp =>
    if s = 0 then (true, fp :: rest)
    else
      let r := bucketInsert rest fp
      (r.1, s :: r.2)

/-- Modelled from the spec: `bucket.getFingerprintIndex(fp)` (missing
`bucket.go`) returns the position of the first slot holding `fp`, or `-1`
when absent. -/
def getFingerprintIndex : List Nat → Nat → Int
  | [], _ => -1
  | s :: rest, fp =>
    if s = fp then 0
    else
      let r := getFingerprintIndex rest fp
      if r = -1 then -1 else r + 1

/-- Modelled from the spec: `bucket.delete(fp)` (missing `bucket.go`)
overwrites the first slot holding `fp` with the sentinel empty value and
reports success, or reports failure when `fp` is absent. -/
def bucketDelete : List Nat → Nat → Bool × List Nat
  | [], _ => (false, [])
  | s :: rest, fp =>
    if s = fp then (true, 0 :: rest)
    else
      let r := bucketDelete rest fp
      (r.1, s :: r.2)

/-- Modelled from the spec: `bucket.reset()` (missing `bucket.go`) clears all
slots to the sentinel empty value. -/
def bucketReset (b : List Nat) : List Nat := b.map (fun _ => 0)

/-- Modelled from the spec: the hash layer (missing `util.go`) consists of a
wide digest of the input data and a secondary hash of a fingerprint alone
(used by the XOR alternate-index transform).  Both are abstract here; the
theorems hold for every choice. -/
structure HashFn where
  digest : List Nat → Nat
  altHash : Nat → Nat

/-- Modelled from the spec: the fingerprint is derived from a fixed-width
slice of the digest and is never the sentinel value 0 (the derivation remaps
what would be 0), hence a value in `[1, 255]`. -/
def getFingerprint (hash : Nat) : Nat := hash % 255 + 1

/-- Modelled from the spec: `getIndexAndFingerprint(data, bucketPow)`
(missing `util.go`) hashes `data`, derives the primary index from a separate
(high) slice of the digest masked to `[0, 2^bucketPow)`, and the fingerprint
from the low slice. -/
def getIndexAndFingerprint (H : HashFn) (data : List Nat) (bucketPow : Nat) :
    Nat × Nat :=
  let hash := H.digest data
  (hash / 2 ^ 32 % 2 ^ bucketPow, getFingerprint hash)

/-- Modelled from the spec: `getAltIndex(fp, i, bucketPow)` (missing
`util.go`) XORs the index with a secondary hash of the fingerprint alone and
masks the result to `[0, 2^bucketPow)`. -/
def getAltIndex (H : HashFn) (fp i bucketPow : Nat) : Nat :=
  (i ^^^ H.altHash fp) % 2 ^ bucketPow

/-- Fuel-driven ceiling log2: `clog2Aux fuel n` is `⌈log₂ n⌉` whenever
`fuel ≥ n` (the recursion halves `n`, so `n` steps of fuel always suffice). -/
def clog2Aux : Nat → Nat → Nat
  | 0, _ => 0
  | fuel + 1, n => if n ≤ 1 then 0 else clog2Aux fuel ((n + 1) / 2) + 1

/-- Modelled from the spec: `getNextPow2(n)` (missing `util.go`) is the
smallest power of two that is `≥ n`. -/
def getNextPow2 (n : Nat) : Nat := 2 ^ clog2Aux n n

/-- Number of trailing zero bits, after Go's `bits.TrailingZeros` (which
returns the word size 64 for input 0). -/
def trailingZerosAux : Nat → Nat → Nat
  | 0, _ => 0
  | fuel + 1, n => if n % 2 = 1 then 0 else trailingZerosAux fuel (n / 2) + 1

/-- Number of trailing zero bits of `n`, as Go's `bits.TrailingZeros`. -/
def trailingZeros (n : Nat) : Nat :=
  if n = 0 then 64 else trailingZerosAux n n

/-- The `Filter` struct of cuckoofilter.go. -/
structure Filter where
  Buckets : List (List Nat)
  Count : Nat
  BucketPow : Nat
  deriving DecidableEq, Repr

/-- The bucket-array length chosen by `NewFilter`:
`capacity = getNextPow2(capacity) / bucketSize; if capacity == 0 { capacity = 1 }`. -/
def newCapacity (capacity : Nat) : Nat :=
  let c := getNextPow2 capacity / bucketSize
  if c = 0 then 1 else c

/-- `NewFilter` of cuckoofilter.go. -/
def NewFilter (capacity : Nat) : Filter :=
  { Buckets := List.replicate (newCapacity capacity) (List.replicate bucketSize 0)
    Count := 0
    BucketPow := trailingZeros (newCapacity capacity) }

/-- `CopyFilter` of cuckoofilter.go (value semantics make the copy implicit). -/
def CopyFilter (buckets : List (List Nat)) (count : Nat) (bucketPow : Nat) :
    Filter :=
  { Buckets := buckets, Count := count, BucketPow := bucketPow }

/-- `Filter.Lookup` of cuckoofilter.go. -/
def Filter.Lookup (cf : Filter) (H : HashFn) (data : List Nat) : Bool :=
  let p := getIndexAndFingerprint H data cf.BucketPow
  if getFingerprintIndex (cf.Buckets.getD p.1 []) p.2 > -1 then true
  else
    let i2 := getAltIndex H p.2 p.1 cf.BucketPow
    decide (getFingerprintIndex (cf.Buckets.getD i2 []) p.2 > -1)

/-- `Filter.Reset` of cuckoofilter.go. -/
def Filter.Reset (cf : Filter) : Filter :=
  { cf with Buckets := cf.Buckets.map bucketReset, Count := 0 }

/-- `randi` of cuckoofilter.go, with the random draw (`rand.Intn(2) == 0`)
made an explicit argument. -/
def randi (r : Bool) (i1 i2 : Nat) : Nat := if r then i1 else i2

/-- The unexported `Filter.insert` of cuckoofilter.go: try the bucket at `i`;
on success increment `Count`. -/
def Filter.insert (cf : Filter) (fp i : Nat) : Bool × Filter :=
  let r := bucketInsert (cf.Buckets.getD i []) fp
  if r.1 then
    (true, { cf with Buckets := cf.Buckets.set i r.2, Count := cf.Count + 1 })
  else (false, cf)

/-- The unexported `Filter.reinsert` of cuckoofilter.go: at most
`maxCuckooCount` iterations (here the fuel argument); each iteration swaps the
in-hand fingerprint with the one in a random slot `j` of bucket `i` (`js` is
the stream of random draws, reduced mod `bucketSize` like `rand.Intn`), then
tries a plain insert of the evicted fingerprint at its alternate bucket. -/
def Filter.reinsert (cf : Filter) (H : HashFn) (fp i : Nat) :
    Nat → (Nat → Nat) → Bool × Filter
  | 0, _ => (false, cf)
  | fuel + 1, js =>
    let j := js 0 % bucketSize
    let b := cf.Buckets.getD i []
    let oldfp := fp
    let fp2 := b.getD j 0
    let cf2 : Filter := { cf with Buckets := cf.Buckets.set i (b.set j oldfp) }
    let i2 := getAltIndex H fp2 i cf2.BucketPow
    let r := cf2.insert fp2 i2
    if r.1 then r
    else r.2.reinsert H fp2 i2 fuel (fun k => js (k + 1))

/-- `Filter.Insert` of cuckoofilter.go with the random source explicit:
`r` is the `randi` tie-break draw and `js` the stream of eviction-slot
draws. -/
def Filter.Insert (cf : Filter) (H : HashFn) (data : List Nat) (r : Bool)
    (js : Nat → Nat) : Bool × Filter :=
  let p := getIndexAndFingerprint H data cf.BucketPow
  let r1 := cf.insert p.2 p.1
  if r1.1 then r1
  else
    let i2 := getAltIndex H p.2 p.1 cf.BucketPow
    let r2 := cf.insert p.2 i2
    if r2.1 then r2
    else cf.reinsert H p.2 (randi r p.1 i2) maxCuckooCount js

/-- `Filter.InsertUnique` of cuckoofilter.go. -/
def Filter.InsertUnique (cf : Filter) (H : HashFn) (data : List Nat) (r : Bool)
    (js : Nat → Nat) : Bool × Filter :=
  if cf.Lookup H data then (false, cf)
  else cf.Insert H data r js

/-- The unexported `Filter.delete` of cuckoofilter.go: delete from the bucket
at `i`; on success decrement `Count`, guarded against underflow. -/
def Filter.delete (cf : Filter) (fp i : Nat) : Bool × Filter :=
  let r := bucketDelete (cf.Buckets.getD i []) fp
  if r.1 then
    (true, { cf with
             Buckets := cf.Buckets.set i r.2
             Count := if 0 < cf.Count then cf.Count - 1 else cf.Count })
  else (false, cf)

/-- `Filter.Delete` of cuckoofilter.go. -/
def Filter.Delete (cf : Filter) (H : HashFn) (data : List Nat) : Bool × Filter :=
  let p := getIndexAndFingerprint H data cf.BucketPow
  let r1 := cf.delete p.2 p.1
  if r1.1 then r1
  else
    let i2 := getAltIndex H p.2 p.1 cf.BucketPow
    cf.delete p.2 i2

/-- `Filter.CountEntries` of cuckoofilter.go. -/
def Filter.CountEntries (cf : Filter) : Nat := cf.Count

/-- `Filter.Encode` of cuckoofilter.go: one byte per fingerprint, bucket
order then within-bucket slot order (`bytes[(i*len(b))+j] = byte(f)` with
`len(b) = bucketSize` for every bucket of a Go `Filter`, i.e. plain
concatenation). -/
def Filter.Encode (cf : Filter) : List Nat := cf.Buckets.flatten

/-- The size-mismatch error message of `Decode`. -/
def decodeSizeErr (n : Nat) : String :=
  "expected bytes to be multiple of " ++ toString bucketSize ++ ", got " ++ toString n

/-- The empty-input error message of `Decode`. -/
def decodeEmptyErr : String := "bytes can not be empty"

/-- Groups a byte list into buckets of 4 consecutive bytes, as `Decode`'s
loop `buckets[i][j] = fingerprint(bytes[(i*len(b))+j])` does. -/
def toBuckets : List Nat → List (List Nat)
  | a :: b :: c :: d :: rest => [a, b, c, d] :: toBuckets rest
  | _ => []

/-- `Decode` of cuckoofilter.go: rejects a length that is not a multiple of
`bucketSize`, then (second check in the source) the empty input; otherwise
rebuilds the buckets byte for byte, recounting the non-zero bytes and
re-deriving `BucketPow` from the bucket-array length. -/
def Decode (bytes : List Nat) : Except String Filter :=
  if bytes.length % bucketSize ≠ 0 then .error (decodeSizeErr bytes.length)
  else if bytes.length = 0 then .error decodeEmptyErr
  else
    .ok { Buckets := toBuckets bytes
          Count := (bytes.filter (fun x => x != 0)).length
          BucketPow := trailingZeros (bytes.length / 4) }

/-- Number of non-sentinel (non-zero) slots of one bucket. -/
def nzLen (b : List Nat) : Nat := (b.filter (fun x => x != 0)).length

/-- Number of non-sentinel (non-zero) slots across all buckets. -/
def nonzeroSlots (L : List (List Nat)) : Nat := (L.map nzLen).sum

/-- Number of occurrences of the fingerprint `x` across all buckets. -/
def cntB (x : Nat) (L : List (List Nat)) : Nat := (L.map (fun b => b.count x)).sum

/-- The multiset of presently-stored (non-sentinel) fingerprints. -/
def fpMultiset (f : Filter) : Multiset Nat :=
  (f.Buckets.flatten.filter (fun x => x != 0) : List Nat)

/-- Well-formedness of a filter: every bucket has exactly `bucketSize` slots,
the bucket array length is `2 ^ BucketPow`, and `Count` agrees with the
number of occupied (non-sentinel) slots. -/
def Filter.WF (f : Filter) : Prop :=
  (∀ b ∈ f.Buckets, b.length = bucketSize) ∧
  f.Buckets.length = 2 ^ f.BucketPow ∧
  f.Count = nonzeroSlots f.Buckets

/-- One mutating API call, with its random draws recorded explicitly. -/
inductive Op where
  | ins (data : List Nat) (r : Bool) (js : Nat → Nat)
  | insU (data : List Nat) (r : Bool) (js : Nat → Nat)
  | del (data : List Nat)
  | reset

/-- Runs one mutating API call on a filter. -/
def applyOp (H : HashFn) (f : Filter) : Op → Filter
  | Op.ins d r js => (f.Insert H d r js).2
  | Op.insU d r js => (f.InsertUnique H d r js).2
  | Op.del d => (f.Delete H d).2
  | Op.reset => f.Reset

/-- Runs a sequence of mutating API calls on a filter. -/
def applyOps (H : HashFn) (f : Filter) (ops : List Op) : Filter :=
  ops.foldl (applyOp H) f

/-- Filters reachable from some `NewFilter c` by `Insert` / `InsertUnique` /
`Delete` / `Reset` calls with arbitrary random draws. -/
inductive Reachable (H : HashFn) : Filter → Prop
  | new (c : Nat) : Reachable H (NewFilter c)
  | step (f : Filter) (op : Op) : Reachable H f → Reachable H (applyOp H f op)

/-- The candidate bucket pair of a fingerprint, with no index repeated. -/
def pairList (i1 i2 : Nat) : List Nat := if i2 = i1 then [i1] else [i1, i2]

/-- Number of copies of fingerprint `fp` stored in its two candidate
buckets `i1`, `i2`. -/
def pairCnt (fp i1 i2 : Nat) (L : List (List Nat)) : Nat :=
  ((pairList i1 i2).map (fun i => (L.getD i []).count fp)).sum

/-- Contribution of an in-hand fingerprint `h` about to be placed in bucket
`i` to the copies of `fp` within the candidate pair `i1`, `i2`. -/
def contrib (fp i1 i2 h i : Nat) : Nat :=
  if h = fp ∧ (i = i1 ∨ i = i2) then 1 else 0

/-- A `Delete` call that cannot disturb the tracked fingerprint `fpd` living
in candidate buckets `i1d`, `i2d`: its own fingerprint differs, or its two
candidate buckets are disjoint from the tracked ones. -/
def delOK (H : HashFn) (fpd i1d i2d pow : Nat) (e : List Nat) : Prop :=
  let p := getIndexAndFingerprint H e pow
  let j2 := getAltIndex H p.2 p.1 pow
  p.2 ≠ fpd ∨ (p.1 ≠ i1d ∧ p.1 ≠ i2d ∧ j2 ≠ i1d ∧ j2 ≠ i2d)

/-- A suffix of operations that does not threaten the tracked fingerprint:
every `Insert` succeeds (a failed insert may drop its final in-hand
fingerprint with no rollback), every `InsertUnique` either short-circuits or
succeeds, every `Delete` satisfies `delOK`, and no `Reset` occurs. -/
def safeSuffix (H : HashFn) (fpd i1d i2d : Nat) : Filter → List Op → Prop
  | _, [] => True
  | g, op :: rest =>
    (match op with
     | Op.ins e r js => (g.Insert H e r js).1 = true
     | Op.insU e r js => g.Lookup H e = true ∨ (g.Insert H e r js).1 = true
     | Op.del e => delOK H fpd i1d i2d g.BucketPow e
     | Op.reset => False) ∧
    safeSuffix H fpd i1d i2d (applyOp H g op) rest

/-- A concrete hash instance: the digest is the first byte of the data. -/
def H0 : HashFn := ⟨fun l => l.headD 0, fun _ => 0⟩

/-- A concrete hash instance that maps the distinct inputs `[0]` and `[1]`
to digests 0 and 255, which share fingerprint 1 and primary index 0. -/
def H1 : HashFn := ⟨fun l => 255 * l.headD 0, fun _ => 0⟩

/-- A concrete eviction-slot random stream. -/
def js0 : Nat → Nat := fun k => if k = 1 then 1 else 0

/-- Four successful inserts filling the single bucket of `NewFilter 1`. -/
def exOps : List Op :=
  [Op.ins [0] true (fun _ => 0), Op.ins [1] true (fun _ => 0),
   Op.ins [2] true (fun _ => 0), Op.ins [3] true (fun _ => 0)]

/-- The full one-bucket filter reached by `exOps`: its bucket is `[1,2,3,4]`. -/
def exFull : Filter := applyOps H0 (NewFilter 1) exOps

/-! ### Bucket-level lemmas -/

theorem bucketInsert_length (b : List Nat) (fp : Nat) :
    (bucketInsert b fp).2.length = b.length := by
  induction b with
  | nil => simp [bucketInsert]
  | cons s rest ih => by_cases hs : s = 0 <;> simp [bucketInsert, hs, ih]

theorem bucketInsert_true_iff (b : List Nat) (fp : Nat) :
    (bucketInsert b fp).1 = true ↔ 0 ∈ b := by
  induction b with
  | nil => simp [bucketInsert]
  | cons s rest ih =>
    by_cases hs : s = 0
    · simp [bucketInsert, hs]
    · simp only [bucketInsert, if_neg hs, List.mem_cons, ih]
      constructor
      · exact fun h => Or.inr h
      · rintro (h | h)
        · exact absurd h.symm hs
        · exact h

theorem bucketInsert_eq_of_false (b : List Nat) (fp : Nat)
    (h : (bucketInsert b fp).1 = false) : (bucketInsert b fp).2 = b := by
  induction b with
  | nil => simp [bucketInsert]
  | cons s rest ih =>
    by_cases hs : s = 0
    · simp [bucketInsert, hs] at h
    · simp only [bucketInsert, if_neg hs] at h ⊢
      simp [ih h]

theorem bucketInsert_count (b : List Nat) (fp x : Nat)
    (h : (bucketInsert b fp).1 = true) (hx : x ≠ 0) :
    (bucketInsert b fp).2.count x = b.count x + if x = fp then 1 else 0 := by
  induction b with
  | nil => simp [bucketInsert] at h
  | cons s rest ih =>
    by_cases hs : s = 0
    · subst hs
      have hb : bucketInsert (0 :: rest) fp = (true, fp :: rest) := by
        simp [bucketInsert]
      rw [hb]
      rw [List.count_cons, List.count_cons]
      have h0 : ((0 : Nat) == x) = false := by simp [Ne.symm hx]
      simp only [h0]
      by_cases hfx : x = fp
      · simp [hfx]
      · have hfb : (fp == x) = false := by simp [Ne.symm hfx]
        simp [hfb, hfx]
    · simp only [bucketInsert, if_neg hs] at h ⊢
      rw [List.count_cons, List.count_cons, ih h]
      omega

theorem bucketInsert_nzLen (b : List Nat) (fp : Nat)
    (h : (bucketInsert b fp).1 = true) (hfp : fp ≠ 0) :
    nzLen (bucketInsert b fp).2 = nzLen b + 1 := by
  induction b with
  | nil => simp [bucketInsert] at h
  | cons s rest ih =>
    by_cases hs : s = 0
    · subst hs
      simp [bucketInsert, nzLen, List.filter_cons, hfp]
    · simp only [bucketInsert, if_neg hs] at h ⊢
      simp only [nzLen, List.filter_cons] at ih ⊢
      have hsb : (s != 0) = true := by simp [hs]
      simp only [hsb, if_pos]
      simp only [List.length_cons, nzLen] at ih ⊢
      rw [ih h]

theorem bucketDelete_length (b : List Nat) (fp : Nat) :
    (bucketDelete b fp).2.length = b.length := by
  induction b with
  | nil => simp [bucketDelete]
  | cons s rest ih => by_cases hs : s = fp <;> simp [bucketDelete, hs, ih]

theorem bucketDelete_true_iff (b : List Nat) (fp : Nat) :
    (bucketDelete b fp).1 = true ↔ fp ∈ b := by
  induction b with
  | nil => simp [bucketDelete]
  | cons s rest ih =>
    by_cases hs : s = fp
    · simp [bucketDelete, hs]
    · simp only [bucketDelete, if_neg hs, List.mem_cons, ih]
      constructor
      · exact fun h => Or.inr h
      · rintro (h | h)
        · exact absurd h.symm hs
        · exact h

theorem bucketDelete_eq_of_false (b : List Nat) (fp : Nat)
    (h : (bucketDelete b fp).1 = false) : (bucketDelete b fp).2 = b := by
  induction b with
  | nil => simp [bucketDelete]
  | cons s rest ih =>
    by_cases hs : s = fp
    · simp [bucketDelete, hs] at h
    · simp only [bucketDelete, if_neg hs] at h ⊢
      simp [ih h]

theorem bucketDelete_count (b : List Nat) (fp x : Nat)
    (h : (bucketDelete b fp).1 = true) (hx : x ≠ 0) :
    (bucketDelete b fp).2.count x + (if x = fp then 1 else 0) = b.count x := by
  induction b with
  | nil => simp [bucketDelete] at h
  | cons s rest ih =>
    by_cases hs : s = fp
    · subst hs
      have hb : bucketDelete (s :: rest) s = (true, 0 :: rest) := by
        simp [bucketDelete]
      rw [hb]
      rw [List.count_cons, List.count_cons]
      have h0 : ((0 : Nat) == x) = false := by simp [Ne.symm hx]
      simp only [h0]
      by_cases hfx : x = s
      · simp [hfx]
      · have hsb : (s == x) = false := by simp [Ne.symm hfx]
        simp [hsb, hfx]
    · simp only [bucketDelete, if_neg hs] at h ⊢
      rw [List.count_cons, List.count_cons]
      have := ih h
      omega

theorem bucketDelete_nzLen (b : List Nat) (fp : Nat)
    (h : (bucketDelete b fp).1 = true) (hfp : fp ≠ 0) :
    nzLen (bucketDelete b fp).2 + 1 = nzLen b := by
  induction b with
  | nil => simp [bucketDelete] at h
  | cons s rest ih =>
    by_cases hs : s = fp
    · subst hs
      simp [bucketDelete, nzLen, List.filter_cons, hfp]
    · simp only [bucketDelete, if_neg hs] at h ⊢
      simp only [nzLen, List.filter_cons] at ih ⊢
      by_cases hz : s = 0
      · simp only [hz]
        simpa using ih h
      · have hsb : (s != 0) = true := by simp [hz]
        simp only [hsb, if_pos, List.length_cons]
        have := ih h
        omega

theorem getFingerprintIndex_ge (b : List Nat) (fp : Nat) :
    getFingerprintIndex b fp ≥ -1 := by
  induction b with
  | nil => simp [getFingerprintIndex]
  | cons s rest ih =>
    by_cases hs : s = fp
    · simp [getFingerprintIndex, hs]
    · simp only [getFingerprintIndex, if_neg hs]
      by_cases hr : getFingerprintIndex rest fp = -1
      · simp [hr]
      · simp only [if_neg hr]
        omega

theorem getFingerprintIndex_pos_iff (b : List Nat) (fp : Nat) :
    getFingerprintIndex b fp > -1 ↔ fp ∈ b := by
  induction b with
  | nil => simp [getFingerprintIndex]
  | cons s rest ih =>
    by_cases hs : s = fp
    · simp [getFingerprintIndex, hs]
    · simp only [getFingerprintIndex, if_neg hs, List.mem_cons]
      by_cases hr : getFingerprintIndex rest fp = -1
      · rw [hr] at ih
        simp only [if_pos hr]
        constructor
        · omega
        · rintro (h | h)
          · exact absurd h.symm hs
          · exact absurd (ih.2 h) (by omega)
      · have hge := getFingerprintIndex_ge rest fp
        simp only [if_neg hr]
        constructor
        · intro _
          exact Or.inr (ih.1 (by omega))
        · intro _
          omega

/-! ### List `set` / `getD` lemmas -/

theorem getD_set_self {α : Type} (l : List α) (i : Nat) (a d : α)
    (h : i < l.length) : (l.set i a).getD i d = a := by
  rw [List.getD_eq_getElem _ _ (by simpa using h), List.getElem_set]
  simp

theorem getD_set_ne {α : Type} (l : List α) (i j : Nat) (a d : α)
    (h : i ≠ j) : (l.set i a).getD j d = l.getD j d := by
  by_cases hj : j < l.length
  · rw [List.getD_eq_getElem _ _ (by simpa using hj),
      List.getD_eq_getElem _ _ hj, List.getElem_set_ne h]
  · rw [List.getD_eq_default _ _ (by simpa using Nat.le_of_not_lt hj),
      List.getD_eq_default _ _ (Nat.le_of_not_lt hj)]

theorem getD_mem {α : Type} (l : List α) (i : Nat) (d : α)
    (h : i < l.length) : l.getD i d ∈ l := by
  rw [List.getD_eq_getElem _ _ h]
  exact List.getElem_mem h

theorem ite_eq_swap (a b : Nat) : (if a = b then (1 : Nat) else 0) = if b = a then 1 else 0 := by
  by_cases h : a = b
  · simp [h]
  · simp [h, Ne.symm h]

theorem count_set (b : List Nat) (j h x : Nat) (hj : j < b.length) :
    (b.set j h).count x + (if x = b.getD j 0 then 1 else 0) =
      b.count x + (if x = h then 1 else 0) := by
  induction b generalizing j with
  | nil => simp at hj
  | cons s rest ih =>
    cases j with
    | zero =>
      simp only [List.set_cons_zero, List.getD_cons_zero]
      rw [List.count_cons, List.count_cons]
      simp only [beq_iff_eq, ite_eq_swap s x, ite_eq_swap h x]
      omega
    | succ j =>
      simp only [List.set_cons_succ, List.getD_cons_succ]
      rw [List.count_cons, List.count_cons]
      have := ih j (by simpa using hj)
      omega

theorem nzLen_set (b : List Nat) (j h : Nat) (hj : j < b.length)
    (hv : b.getD j 0 ≠ 0) (hh : h ≠ 0) :
    nzLen (b.set j h) = nzLen b := by
  induction b generalizing j with
  | nil => simp at hj
  | cons s rest ih =>
    cases j with
    | zero =>
      simp only [List.getD_cons_zero] at hv
      simp [nzLen, List.filter_cons, hv, hh]
    | succ j =>
      simp only [List.getD_cons_succ] at hv
      simp only [List.set_cons_succ, nzLen, List.filter_cons]
      by_cases hs : s = 0
      · simp only [hs]
        simpa [nzLen] using ih j (by simpa using hj) hv
      · have hsb : (s != 0) = true := by simp [hs]
        simp only [hsb, if_pos, List.length_cons]
        have := ih j (by simpa using hj) hv
        simp only [nzLen] at this
        omega

theorem full_getD_ne_zero (b : List Nat) (j : Nat) (hfull : 0 ∉ b)
    (hj : j < b.length) : b.getD j 0 ≠ 0 := by
  intro h
  exact hfull (h ▸ getD_mem b j 0 hj)

/-! ### Bucket-array sum lemmas -/

theorem cntB_set (x : Nat) (L : List (List Nat)) (i : Nat) (b : List Nat)
    (hi : i < L.length) :
    cntB x (L.set i b) + (L.getD i []).count x = cntB x L + b.count x := by
  induction L generalizing i with
  | nil => simp at hi
  | cons c rest ih =>
    cases i with
    | zero => simp [cntB, List.getD_cons_zero]; omega
    | succ i =>
      simp only [List.set_cons_succ, List.getD_cons_succ, cntB, List.map_cons,
        List.sum_cons]
      have := ih i (by simpa using hi)
      simp only [cntB] at this
      omega

theorem nonzeroSlots_set (L : List (List Nat)) (i : Nat) (b : List Nat)
    (hi : i < L.length) :
    nonzeroSlots (L.set i b) + nzLen (L.getD i []) =
      nonzeroSlots L + nzLen b := by
  induction L generalizing i with
  | nil => simp at hi
  | cons c rest ih =>
    cases i with
    | zero => simp [nonzeroSlots, List.getD_cons_zero]; omega
    | succ i =>
      simp only [List.set_cons_succ, List.getD_cons_succ, nonzeroSlots,
        List.map_cons, List.sum_cons]
      have := ih i (by simpa using hi)
      simp only [nonzeroSlots] at this
      omega

theorem len4_set (L : List (List Nat)) (i : Nat) (b : List Nat) (n : Nat)
    (hL : ∀ c ∈ L, c.length = n) (hb : b.length = n) :
    ∀ c ∈ L.set i b, c.length = n := by
  intro c hc
  rcases List.mem_or_eq_of_mem_set hc with h | h
  · exact hL c h
  · rw [h, hb]

/-! ### Lemmas about the low-level `Filter.insert` -/

theorem insert_eq_pos (cf : Filter) (fp i : Nat)
    (hb : (bucketInsert (cf.Buckets.getD i []) fp).1 = true) :
    cf.insert fp i =
      (true, { cf with
               Buckets := cf.Buckets.set i (bucketInsert (cf.Buckets.getD i []) fp).2
               Count := cf.Count + 1 }) := by
  unfold Filter.insert
  rw [if_pos hb]

theorem insert_eq_neg (cf : Filter) (fp i : Nat)
    (hb : ¬ (bucketInsert (cf.Buckets.getD i []) fp).1 = true) :
    cf.insert fp i = (false, cf) := by
  unfold Filter.insert
  rw [if_neg hb]

theorem insert_eq_of_false (cf : Filter) (fp i : Nat)
    (h : (cf.insert fp i).1 = false) : (cf.insert fp i).2 = cf := by
  by_cases hb : (bucketInsert (cf.Buckets.getD i []) fp).1 = true
  · rw [insert_eq_pos cf fp i hb] at h
    simp at h
  · rw [insert_eq_neg cf fp i hb]

theorem insert_full_of_false (cf : Filter) (fp i : Nat)
    (h : (cf.insert fp i).1 = false) : 0 ∉ cf.Buckets.getD i [] := by
  by_cases hb : (bucketInsert (cf.Buckets.getD i []) fp).1 = true
  · rw [insert_eq_pos cf fp i hb] at h
    simp at h
  · intro hmem
    exact hb ((bucketInsert_true_iff _ _).2 hmem)

theorem insert_lt_of_true (cf : Filter) (fp i : Nat)
    (h : (cf.insert fp i).1 = true) : i < cf.Buckets.length := by
  by_contra hlt
  have hd : cf.Buckets.getD i [] = [] :=
    List.getD_eq_default _ _ (Nat.le_of_not_lt hlt)
  have hb : ¬ (bucketInsert (cf.Buckets.getD i []) fp).1 = true := by
    rw [hd]
    simp [bucketInsert]
  rw [insert_eq_neg cf fp i hb] at h
  simp at h

theorem insert_bucketPow (cf : Filter) (fp i : Nat) :
    (cf.insert fp i).2.BucketPow = cf.BucketPow := by
  by_cases hb : (bucketInsert (cf.Buckets.getD i []) fp).1 = true
  · rw [insert_eq_pos cf fp i hb]
  · rw [insert_eq_neg cf fp i hb]

theorem insert_bucketsLength (cf : Filter) (fp i : Nat) :
    (cf.insert fp i).2.Buckets.length = cf.Buckets.length := by
  by_cases hb : (bucketInsert (cf.Buckets.getD i []) fp).1 = true
  · rw [insert_eq_pos cf fp i hb]
    simp
  · rw [insert_eq_neg cf fp i hb]

theorem insert_len4 (cf : Filter) (fp i n : Nat)
    (hL : ∀ b ∈ cf.Buckets, b.length = n) :
    ∀ b ∈ (cf.insert fp i).2.Buckets, b.length = n := by
  by_cases hb : (bucketInsert (cf.Buckets.getD i []) fp).1 = true
  · rw [insert_eq_pos cf fp i hb]
    intro b hbmem
    refine len4_set _ _ _ _ hL ?_ b hbmem
    rw [bucketInsert_length]
    by_cases hi : i < cf.Buckets.length
    · exact hL _ (getD_mem _ _ _ hi)
    · rw [List.getD_eq_default _ _ (Nat.le_of_not_lt hi)] at hb
      simp [bucketInsert] at hb
  · rw [insert_eq_neg cf fp i hb]
    exact hL

theorem insert_count_of_true (cf : Filter) (fp i : Nat)
    (h : (cf.insert fp i).1 = true) : (cf.insert fp i).2.Count = cf.Count + 1 := by
  by_cases hb : (bucketInsert (cf.Buckets.getD i []) fp).1 = true
  · rw [insert_eq_pos cf fp i hb]
  · rw [insert_eq_neg cf fp i hb] at h
    simp at h

theorem insert_cntB_of_true (cf : Filter) (fp i : Nat)
    (h : (cf.insert fp i).1 = true) (x : Nat) (hx : x ≠ 0) :
    cntB x (cf.insert fp i).2.Buckets =
      cntB x cf.Buckets + if x = fp then 1 else 0 := by
  have hlt := insert_lt_of_true cf fp i h
  by_cases hb : (bucketInsert (cf.Buckets.getD i []) fp).1 = true
  · rw [insert_eq_pos cf fp i hb]
    dsimp only
    have hset := cntB_set x cf.Buckets i (bucketInsert (cf.Buckets.getD i []) fp).2 hlt
    have hcnt := bucketInsert_count (cf.Buckets.getD i []) fp x hb hx
    omega
  · rw [insert_eq_neg cf fp i hb] at h
    simp at h

theorem insert_nz_of_true (cf : Filter) (fp i : Nat)
    (h : (cf.insert fp i).1 = true) (hfp : fp ≠ 0) :
    nonzeroSlots (cf.insert fp i).2.Buckets = nonzeroSlots cf.Buckets + 1 := by
  have hlt := insert_lt_of_true cf fp i h
  by_cases hb : (bucketInsert (cf.Buckets.getD i []) fp).1 = true
  · rw [insert_eq_pos cf fp i hb]
    dsimp only
    have hset := nonzeroSlots_set cf.Buckets i (bucketInsert (cf.Buckets.getD i []) fp).2 hlt
    have hnz := bucketInsert_nzLen (cf.Buckets.getD i []) fp hb hfp
    omega
  · rw [insert_eq_neg cf fp i hb] at h
    simp at h

/-! ### The eviction loop -/

theorem reinsert_spec (H : HashFn) : ∀ (fuel : Nat) (js : Nat → Nat)
    (cf : Filter) (h i : Nat),
    (∀ b ∈ cf.Buckets, b.length = bucketSize) →
    cf.Buckets.length = 2 ^ cf.BucketPow →
    i < cf.Buckets.length →
    0 ∉ cf.Buckets.getD i [] →
    h ≠ 0 →
    (∀ b ∈ (cf.reinsert H h i fuel js).2.Buckets, b.length = bucketSize) ∧
    (cf.reinsert H h i fuel js).2.Buckets.length = cf.Buckets.length ∧
    (cf.reinsert H h i fuel js).2.BucketPow = cf.BucketPow ∧
    ((cf.reinsert H h i fuel js).1 = true →
      (cf.reinsert H h i fuel js).2.Count = cf.Count + 1 ∧
      (∀ x, x ≠ 0 → cntB x (cf.reinsert H h i fuel js).2.Buckets =
        cntB x cf.Buckets + if x = h then 1 else 0) ∧
      nonzeroSlots (cf.reinsert H h i fuel js).2.Buckets =
        nonzeroSlots cf.Buckets + 1) ∧
    ((cf.reinsert H h i fuel js).1 = false →
      (cf.reinsert H h i fuel js).2.Count = cf.Count ∧
      ∃ y, y ≠ 0 ∧
        (∀ x, x ≠ 0 →
          cntB x (cf.reinsert H h i fuel js).2.Buckets + (if x = y then 1 else 0) =
            cntB x cf.Buckets + if x = h then 1 else 0) ∧
        nonzeroSlots (cf.reinsert H h i fuel js).2.Buckets =
          nonzeroSlots cf.Buckets) := by
  intro fuel
  induction fuel with
  | zero =>
    intro js cf h i hlen4 hpow hi hfull hh
    refine ⟨hlen4, rfl, rfl, ?_, ?_⟩
    · intro ht
      simp [Filter.reinsert] at ht
    · intro _
      exact ⟨rfl, h, hh, fun x _ => rfl, rfl⟩
  | succ fuel ih =>
    intro js cf h i hlen4 hpow hi hfull hh
    have hbmem : cf.Buckets.getD i [] ∈ cf.Buckets := getD_mem _ _ _ hi
    have hblen : (cf.Buckets.getD i []).length = bucketSize := hlen4 _ hbmem
    have hjlt : js 0 % bucketSize < (cf.Buckets.getD i []).length := by
      rw [hblen]
      exact Nat.mod_lt _ (by norm_num [bucketSize])
    have hv : (cf.Buckets.getD i []).getD (js 0 % bucketSize) 0 ≠ 0 :=
      full_getD_ne_zero _ _ hfull hjlt
    simp only [Filter.reinsert]
    set v := (cf.Buckets.getD i []).getD (js 0 % bucketSize) 0 with hvdef
    set cf2 : Filter :=
      { cf with
        Buckets := cf.Buckets.set i
          ((cf.Buckets.getD i []).set (js 0 % bucketSize) h) } with hcf2
    set i2 := getAltIndex H v i cf.BucketPow with hi2def
    -- facts about the swapped filter cf2
    have hlen2 : cf2.Buckets.length = cf.Buckets.length := by
      rw [hcf2]
      simp
    have hlen42 : ∀ b ∈ cf2.Buckets, b.length = bucketSize := by
      rw [hcf2]
      refine len4_set _ _ _ _ hlen4 ?_
      rw [List.length_set, hblen]
    have hpow2 : cf2.BucketPow = cf.BucketPow := rfl
    have hcount2 : cf2.Count = cf.Count := rfl
    have hcnt2 : ∀ x, cntB x cf2.Buckets + (if x = v then 1 else 0) =
        cntB x cf.Buckets + (if x = h then 1 else 0) := by
      intro x
      have hset := cntB_set x cf.Buckets i
        ((cf.Buckets.getD i []).set (js 0 % bucketSize) h) hi
      have hcs := count_set (cf.Buckets.getD i []) (js 0 % bucketSize) h x hjlt
      rw [← hvdef] at hcs
      rw [hcf2]
      dsimp only
      omega
    have hnz2 : nonzeroSlots cf2.Buckets = nonzeroSlots cf.Buckets := by
      have hset := nonzeroSlots_set cf.Buckets i
        ((cf.Buckets.getD i []).set (js 0 % bucketSize) h) hi
      have hns := nzLen_set (cf.Buckets.getD i []) (js 0 % bucketSize) h hjlt hv hh
      rw [hcf2]
      dsimp only
      omega
    have hi2lt : i2 < cf2.Buckets.length := by
      rw [hlen2, hpow]
      exact Nat.mod_lt _ (Nat.pos_pow_of_pos _ (by norm_num))
    by_cases hr : (cf2.insert v i2).1 = true
    · rw [if_pos hr]
      have hc := insert_count_of_true cf2 v i2 hr
      have hcb := fun x hx => insert_cntB_of_true cf2 v i2 hr x hx
      have hnzi := insert_nz_of_true cf2 v i2 hr hv
      refine ⟨insert_len4 cf2 v i2 _ hlen42, ?_, ?_, ?_, ?_⟩
      · rw [insert_bucketsLength, hlen2]
      · rw [insert_bucketPow, hpow2]
      · intro _
        refine ⟨by rw [hc, hcount2], ?_, ?_⟩
        · intro x hx
          have := hcnt2 x
          have := hcb x hx
          omega
        · rw [hnzi, hnz2]
      · intro hf
        rw [hr] at hf
        cases hf
    · rw [if_neg hr]
      have hr2 : (cf2.insert v i2).2 = cf2 :=
        insert_eq_of_false cf2 v i2 (by simpa using hr)
      rw [hr2]
      have hfull2 : 0 ∉ cf2.Buckets.getD i2 [] :=
        insert_full_of_false cf2 v i2 (by simpa using hr)
      have hpow2' : cf2.Buckets.length = 2 ^ cf2.BucketPow := by
        rw [hlen2, hpow2, hpow]
      have hih := ih (fun k => js (k + 1)) cf2 v i2 hlen42 hpow2' hi2lt hfull2 hv
      obtain ⟨ih1, ih2, ih3, ih4, ih5⟩ := hih
      refine ⟨ih1, by rw [ih2, hlen2], by rw [ih3, hpow2], ?_, ?_⟩
      · intro ht
        obtain ⟨ihc, ihcnt, ihnz⟩ := ih4 ht
        refine ⟨by rw [ihc, hcount2], ?_, by rw [ihnz, hnz2]⟩
        intro x hx
        have := ihcnt x hx
        have := hcnt2 x
        omega
      · intro hf
        obtain ⟨ihc, y, hy, ihcnt, ihnz⟩ := ih5 hf
        refine ⟨by rw [ihc, hcount2], y, hy, ?_, by rw [ihnz, hnz2]⟩
        intro x hx
        have := ihcnt x hx
        have := hcnt2 x
        omega

/-! ### Hash-layer basics -/

theorem getFingerprint_ne_zero (hash : Nat) : getFingerprint hash ≠ 0 := by
  simp [getFingerprint]

theorem getIndex_lt (H : HashFn) (data : List Nat) (pow : Nat) :
    (getIndexAndFingerprint H data pow).1 < 2 ^ pow := by
  simp only [getIndexAndFingerprint]
  exact Nat.mod_lt _ (Nat.pos_pow_of_pos _ (by norm_num))

theorem getIndexAndFingerprint_snd_ne_zero (H : HashFn) (data : List Nat)
    (pow : Nat) : (getIndexAndFingerprint H data pow).2 ≠ 0 :=
  getFingerprint_ne_zero _

theorem getAltIndex_lt (H : HashFn) (fp i pow : Nat) :
    getAltIndex H fp i pow < 2 ^ pow := by
  simp only [getAltIndex]
  exact Nat.mod_lt _ (Nat.pos_pow_of_pos _ (by norm_num))

/-! ### Count-field deltas, independent of any well-formedness -/

theorem reinsert_count (H : HashFn) : ∀ (fuel : Nat) (js : Nat → Nat)
    (cf : Filter) (h i : Nat),
    ((cf.reinsert H h i fuel js).1 = true →
      (cf.reinsert H h i fuel js).2.Count = cf.Count + 1) ∧
    ((cf.reinsert H h i fuel js).1 = false →
      (cf.reinsert H h i fuel js).2.Count = cf.Count) := by
  intro fuel
  induction fuel with
  | zero =>
    intro js cf h i
    constructor
    · intro ht
      simp [Filter.reinsert] at ht
    · intro _
      rfl
  | succ fuel ih =>
    intro js cf h i
    simp only [Filter.reinsert]
    set v := (cf.Buckets.getD i []).getD (js 0 % bucketSize) 0 with hvdef
    set cf2 : Filter :=
      { cf with
        Buckets := cf.Buckets.set i
          ((cf.Buckets.getD i []).set (js 0 % bucketSize) h) } with hcf2
    set i2 := getAltIndex H v i cf.BucketPow with hi2def
    have hcount2 : cf2.Count = cf.Count := rfl
    by_cases hr : (cf2.insert v i2).1 = true
    · rw [if_pos hr]
      constructor
      · intro _
        rw [insert_count_of_true cf2 v i2 hr, hcount2]
      · intro hf
        rw [hr] at hf
        cases hf
    · rw [if_neg hr]
      have hr2 : (cf2.insert v i2).2 = cf2 :=
        insert_eq_of_false cf2 v i2 (by simpa using hr)
      rw [hr2]
      obtain ⟨iht, ihf⟩ := ih (fun k => js (k + 1)) cf2 v i2
      constructor
      · intro ht
        rw [iht ht, hcount2]
      · intro hf
        rw [ihf hf, hcount2]

theorem Insert_count (cf : Filter) (H : HashFn) (data : List Nat) (r : Bool)
    (js : Nat → Nat) :
    ((cf.Insert H data r js).1 = true →
      (cf.Insert H data r js).2.Count = cf.Count + 1) ∧
    ((cf.Insert H data r js).1 = false →
      (cf.Insert H data r js).2.Count = cf.Count) := by
  simp only [Filter.Insert]
  set p := getIndexAndFingerprint H data cf.BucketPow with hp
  set i2 := getAltIndex H p.2 p.1 cf.BucketPow with hi2
  by_cases hr1 : (cf.insert p.2 p.1).1 = true
  · rw [if_pos hr1]
    exact ⟨fun _ => insert_count_of_true cf p.2 p.1 hr1,
      fun hf => absurd hr1 (by simp [hf])⟩
  · rw [if_neg hr1]
    by_cases hr2 : (cf.insert p.2 i2).1 = true
    · rw [if_pos hr2]
      exact ⟨fun _ => insert_count_of_true cf p.2 i2 hr2,
        fun hf => absurd hr2 (by simp [hf])⟩
    · rw [if_neg hr2]
      exact reinsert_count H maxCuckooCount js cf p.2 (randi r p.1 i2)

/-! ### The `Insert` master lemma -/

theorem Insert_spec (cf : Filter) (H : HashFn) (data : List Nat) (r : Bool)
    (js : Nat → Nat)
    (hlen4 : ∀ b ∈ cf.Buckets, b.length = bucketSize)
    (hpow : cf.Buckets.length = 2 ^ cf.BucketPow) :
    (∀ b ∈ (cf.Insert H data r js).2.Buckets, b.length = bucketSize) ∧
    (cf.Insert H data r js).2.Buckets.length = cf.Buckets.length ∧
    (cf.Insert H data r js).2.BucketPow = cf.BucketPow ∧
    ((cf.Insert H data r js).1 = true →
      (∀ x, x ≠ 0 → cntB x (cf.Insert H data r js).2.Buckets =
        cntB x cf.Buckets +
          if x = (getIndexAndFingerprint H data cf.BucketPow).2 then 1 else 0) ∧
      nonzeroSlots (cf.Insert H data r js).2.Buckets =
        nonzeroSlots cf.Buckets + 1) ∧
    ((cf.Insert H data r js).1 = false →
      ∃ y, y ≠ 0 ∧
        (∀ x, x ≠ 0 →
          cntB x (cf.Insert H data r js).2.Buckets + (if x = y then 1 else 0) =
            cntB x cf.Buckets +
              if x = (getIndexAndFingerprint H data cf.BucketPow).2 then 1
              else 0) ∧
        nonzeroSlots (cf.Insert H data r js).2.Buckets =
          nonzeroSlots cf.Buckets) := by
  have hfp : (getIndexAndFingerprint H data cf.BucketPow).2 ≠ 0 :=
    getIndexAndFingerprint_snd_ne_zero H data cf.BucketPow
  simp only [Filter.Insert]
  set p := getIndexAndFingerprint H data cf.BucketPow with hp
  set i2 := getAltIndex H p.2 p.1 cf.BucketPow with hi2
  by_cases hr1 : (cf.insert p.2 p.1).1 = true
  · rw [if_pos hr1]
    refine ⟨insert_len4 cf p.2 p.1 _ hlen4, insert_bucketsLength cf p.2 p.1,
      insert_bucketPow cf p.2 p.1, ?_, ?_⟩
    · intro _
      exact ⟨fun x hx => insert_cntB_of_true cf p.2 p.1 hr1 x hx,
        insert_nz_of_true cf p.2 p.1 hr1 hfp⟩
    · intro hf
      rw [hr1] at hf
      cases hf
  · rw [if_neg hr1]
    by_cases hr2 : (cf.insert p.2 i2).1 = true
    · rw [if_pos hr2]
      refine ⟨insert_len4 cf p.2 i2 _ hlen4, insert_bucketsLength cf p.2 i2,
        insert_bucketPow cf p.2 i2, ?_, ?_⟩
      · intro _
        exact ⟨fun x hx => insert_cntB_of_true cf p.2 i2 hr2 x hx,
          insert_nz_of_true cf p.2 i2 hr2 hfp⟩
      · intro hf
        rw [hr2] at hf
        cases hf
    · rw [if_neg hr2]
      have hfull1 : 0 ∉ cf.Buckets.getD p.1 [] :=
        insert_full_of_false cf p.2 p.1 (by simpa using hr1)
      have hfull2 : 0 ∉ cf.Buckets.getD i2 [] :=
        insert_full_of_false cf p.2 i2 (by simpa using hr2)
      have hi1lt : p.1 < cf.Buckets.length := by
        rw [hpow]
        exact getIndex_lt H data cf.BucketPow
      have hi2lt : i2 < cf.Buckets.length := by
        rw [hpow, hi2]
        exact getAltIndex_lt H p.2 p.1 cf.BucketPow
      have hrandlt : randi r p.1 i2 < cf.Buckets.length := by
        cases r
        · exact hi2lt
        · exact hi1lt
      have hrandfull : 0 ∉ cf.Buckets.getD (randi r p.1 i2) [] := by
        cases r
        · exact hfull2
        · exact hfull1
      obtain ⟨s1, s2, s3, s4, s5⟩ := reinsert_spec H maxCuckooCount js cf p.2
        (randi r p.1 i2) hlen4 hpow hrandlt hrandfull hfp
      refine ⟨s1, s2, s3, ?_, ?_⟩
      · intro ht
        obtain ⟨_, hcnt, hnz⟩ := s4 ht
        exact ⟨hcnt, hnz⟩
      · intro hf
        obtain ⟨_, y, hy, hcnt, hnz⟩ := s5 hf
        exact ⟨y, hy, hcnt, hnz⟩

/-! ### Lemmas about the low-level `Filter.delete` -/

theorem delete_eq_pos (cf : Filter) (fp i : Nat)
    (hb : (bucketDelete (cf.Buckets.getD i []) fp).1 = true) :
    cf.delete fp i =
      (true, { cf with
               Buckets := cf.Buckets.set i (bucketDelete (cf.Buckets.getD i []) fp).2
               Count := if 0 < cf.Count then cf.Count - 1 else cf.Count }) := by
  unfold Filter.delete
  rw [if_pos hb]

theorem delete_eq_neg (cf : Filter) (fp i : Nat)
    (hb : ¬ (bucketDelete (cf.Buckets.getD i []) fp).1 = true) :
    cf.delete fp i = (false, cf) := by
  unfold Filter.delete
  rw [if_neg hb]

theorem delete_fst_iff (cf : Filter) (fp i : Nat) :
    (cf.delete fp i).1 = true ↔ fp ∈ cf.Buckets.getD i [] := by
  by_cases hb : (bucketDelete (cf.Buckets.getD i []) fp).1 = true
  · rw [delete_eq_pos cf fp i hb]
    simpa using (bucketDelete_true_iff _ _).1 hb
  · rw [delete_eq_neg cf fp i hb]
    simp only [Bool.false_eq_true, false_iff]
    intro hmem
    exact hb ((bucketDelete_true_iff _ _).2 hmem)

theorem delete_eq_of_false (cf : Filter) (fp i : Nat)
    (h : (cf.delete fp i).1 = false) : (cf.delete fp i).2 = cf := by
  by_cases hb : (bucketDelete (cf.Buckets.getD i []) fp).1 = true
  · rw [delete_eq_pos cf fp i hb] at h
    simp at h
  · rw [delete_eq_neg cf fp i hb]

theorem delete_lt_of_true (cf : Filter) (fp i : Nat)
    (h : (cf.delete fp i).1 = true) : i < cf.Buckets.length := by
  by_contra hlt
  have hmem := (delete_fst_iff cf fp i).1 h
  rw [List.getD_eq_default _ _ (Nat.le_of_not_lt hlt)] at hmem
  cases hmem

theorem delete_bucketPow (cf : Filter) (fp i : Nat) :
    (cf.delete fp i).2.BucketPow = cf.BucketPow := by
  by_cases hb : (bucketDelete (cf.Buckets.getD i []) fp).1 = true
  · rw [delete_eq_pos cf fp i hb]
  · rw [delete_eq_neg cf fp i hb]

theorem delete_bucketsLength (cf : Filter) (fp i : Nat) :
    (cf.delete fp i).2.Buckets.length = cf.Buckets.length := by
  by_cases hb : (bucketDelete (cf.Buckets.getD i []) fp).1 = true
  · rw [delete_eq_pos cf fp i hb]
    simp
  · rw [delete_eq_neg cf fp i hb]

theorem delete_len4 (cf : Filter) (fp i n : Nat)
    (hL : ∀ b ∈ cf.Buckets, b.length = n) :
    ∀ b ∈ (cf.delete fp i).2.Buckets, b.length = n := by
  by_cases hb : (bucketDelete (cf.Buckets.getD i []) fp).1 = true
  · rw [delete_eq_pos cf fp i hb]
    intro b hbmem
    refine len4_set _ _ _ _ hL ?_ b hbmem
    rw [bucketDelete_length]
    by_cases hi : i < cf.Buckets.length
    · exact hL _ (getD_mem _ _ _ hi)
    · rw [List.getD_eq_default _ _ (Nat.le_of_not_lt hi)] at hb
      simp [bucketDelete] at hb
  · rw [delete_eq_neg cf fp i hb]
    exact hL

theorem delete_count_of_true (cf : Filter) (fp i : Nat)
    (h : (cf.delete fp i).1 = true) :
    (cf.delete fp i).2.Count = if 0 < cf.Count then cf.Count - 1 else cf.Count := by
  by_cases hb : (bucketDelete (cf.Buckets.getD i []) fp).1 = true
  · rw [delete_eq_pos cf fp i hb]
  · rw [delete_eq_neg cf fp i hb] at h
    simp at h

theorem delete_cntB_of_true (cf : Filter) (fp i : Nat)
    (h : (cf.delete fp i).1 = true) (hfp : fp ≠ 0) (x : Nat) (hx : x ≠ 0) :
    cntB x (cf.delete fp i).2.Buckets + (if x = fp then 1 else 0) =
      cntB x cf.Buckets := by
  have hlt := delete_lt_of_true cf fp i h
  by_cases hb : (bucketDelete (cf.Buckets.getD i []) fp).1 = true
  · rw [delete_eq_pos cf fp i hb]
    dsimp only
    have hset := cntB_set x cf.Buckets i (bucketDelete (cf.Buckets.getD i []) fp).2 hlt
    have hcnt := bucketDelete_count (cf.Buckets.getD i []) fp x hb hx
    omega
  · rw [delete_eq_neg cf fp i hb] at h
    simp at h

theorem delete_nz_of_true (cf : Filter) (fp i : Nat)
    (h : (cf.delete fp i).1 = true) (hfp : fp ≠ 0) :
    nonzeroSlots (cf.delete fp i).2.Buckets + 1 = nonzeroSlots cf.Buckets := by
  have hlt := delete_lt_of_true cf fp i h
  by_cases hb : (bucketDelete (cf.Buckets.getD i []) fp).1 = true
  · rw [delete_eq_pos cf fp i hb]
    dsimp only
    have hset := nonzeroSlots_set cf.Buckets i (bucketDelete (cf.Buckets.getD i []) fp).2 hlt
    have hnz := bucketDelete_nzLen (cf.Buckets.getD i []) fp hb hfp
    omega
  · rw [delete_eq_neg cf fp i hb] at h
    simp at h

/-! ### The `Delete` master lemma -/

theorem Delete_spec (cf : Filter) (H : HashFn) (data : List Nat) :
    ((cf.Delete H data).1 = true ↔
      ((getIndexAndFingerprint H data cf.BucketPow).2 ∈
        cf.Buckets.getD (getIndexAndFingerprint H data cf.BucketPow).1 [] ∨
       (getIndexAndFingerprint H data cf.BucketPow).2 ∈
        cf.Buckets.getD
          (getAltIndex H (getIndexAndFingerprint H data cf.BucketPow).2
            (getIndexAndFingerprint H data cf.BucketPow).1 cf.BucketPow) [])) ∧
    ((cf.Delete H data).1 = false → (cf.Delete H data).2 = cf) ∧
    ((cf.Delete H data).1 = true →
      (cf.Delete H data).2.Buckets.length = cf.Buckets.length ∧
      (cf.Delete H data).2.BucketPow = cf.BucketPow ∧
      (cf.Delete H data).2.Count =
        (if 0 < cf.Count then cf.Count - 1 else cf.Count) ∧
      (∀ x, x ≠ 0 →
        cntB x (cf.Delete H data).2.Buckets +
          (if x = (getIndexAndFingerprint H data cf.BucketPow).2 then 1 else 0) =
          cntB x cf.Buckets) ∧
      nonzeroSlots (cf.Delete H data).2.Buckets + 1 =
        nonzeroSlots cf.Buckets) := by
  have hfp : (getIndexAndFingerprint H data cf.BucketPow).2 ≠ 0 :=
    getIndexAndFingerprint_snd_ne_zero H data cf.BucketPow
  simp only [Filter.Delete]
  set p := getIndexAndFingerprint H data cf.BucketPow with hp
  set i2 := getAltIndex H p.2 p.1 cf.BucketPow with hi2
  by_cases hr1 : (cf.delete p.2 p.1).1 = true
  · rw [if_pos hr1]
    refine ⟨?_, ?_, ?_⟩
    · simp only [hr1, true_iff]
      exact Or.inl ((delete_fst_iff cf p.2 p.1).1 hr1)
    · intro hf
      rw [hr1] at hf
      cases hf
    · intro _
      exact ⟨delete_bucketsLength cf p.2 p.1,
        delete_bucketPow cf p.2 p.1, delete_count_of_true cf p.2 p.1 hr1,
        fun x hx => delete_cntB_of_true cf p.2 p.1 hr1 hfp x hx,
        delete_nz_of_true cf p.2 p.1 hr1 hfp⟩
  · rw [if_neg hr1]
    have hne1 : p.2 ∉ cf.Buckets.getD p.1 [] := by
      intro hmem
      exact hr1 ((delete_fst_iff cf p.2 p.1).2 hmem)
    refine ⟨?_, ?_, ?_⟩
    · rw [delete_fst_iff cf p.2 i2]
      constructor
      · exact fun h => Or.inr h
      · rintro (h | h)
        · exact absurd h hne1
        · exact h
    · intro hf
      exact delete_eq_of_false cf p.2 i2 hf
    · intro ht
      exact ⟨delete_bucketsLength cf p.2 i2,
        delete_bucketPow cf p.2 i2, delete_count_of_true cf p.2 i2 ht,
        fun x hx => delete_cntB_of_true cf p.2 i2 ht hfp x hx,
        delete_nz_of_true cf p.2 i2 ht hfp⟩

theorem Delete_len4 (cf : Filter) (H : HashFn) (data : List Nat) (n : Nat)
    (hL : ∀ b ∈ cf.Buckets, b.length = n) :
    ∀ b ∈ (cf.Delete H data).2.Buckets, b.length = n := by
  simp only [Filter.Delete]
  set p := getIndexAndFingerprint H data cf.BucketPow with hp
  set i2 := getAltIndex H p.2 p.1 cf.BucketPow with hi2
  by_cases hr1 : (cf.delete p.2 p.1).1 = true
  · rw [if_pos hr1]
    exact delete_len4 cf p.2 p.1 n hL
  · rw [if_neg hr1]
    exact delete_len4 cf p.2 i2 n hL

/-! ### `Reset` lemmas -/

theorem nzLen_bucketReset (b : List Nat) : nzLen (bucketReset b) = 0 := by
  induction b with
  | nil => rfl
  | cons s rest ih => simpa [bucketReset, nzLen, List.filter_cons] using ih

theorem Reset_spec (cf : Filter) :
    (cf.Reset).Count = 0 ∧
    (cf.Reset).Buckets.length = cf.Buckets.length ∧
    (cf.Reset).BucketPow = cf.BucketPow ∧
    nonzeroSlots (cf.Reset).Buckets = 0 ∧
    (∀ n, (∀ b ∈ cf.Buckets, b.length = n) →
      ∀ b ∈ (cf.Reset).Buckets, b.length = n) := by
  refine ⟨rfl, by simp [Filter.Reset], rfl, ?_, ?_⟩
  · show nonzeroSlots (cf.Buckets.map bucketReset) = 0
    induction cf.Buckets with
    | nil => rfl
    | cons b rest ih =>
      simpa [nonzeroSlots, nzLen_bucketReset] using ih
  · intro n hn b hb
    simp only [Filter.Reset, List.mem_map] at hb
    obtain ⟨c, hc, rfl⟩ := hb
    simpa [bucketReset] using hn c hc

/-! ### Capacity arithmetic -/

theorem trailingZerosAux_two_pow (k : Nat) : ∀ fuel : Nat, 2 ^ k ≤ fuel →
    trailingZerosAux fuel (2 ^ k) = k := by
  induction k with
  | zero =>
    intro fuel hf
    cases fuel with
    | zero => omega
    | succ f => simp [trailingZerosAux]
  | succ k ih =>
    intro fuel hf
    have hpos : 0 < 2 ^ k := Nat.pos_pow_of_pos _ (by norm_num)
    cases fuel with
    | zero =>
      have : 0 < 2 ^ (k + 1) := Nat.pos_pow_of_pos _ (by norm_num)
      omega
    | succ f =>
      have h2 : 2 ^ (k + 1) % 2 = 0 := by
        rw [Nat.pow_succ]
        exact Nat.mul_mod_left _ _
      have hdiv : 2 ^ (k + 1) / 2 = 2 ^ k := by
        rw [Nat.pow_succ]
        exact Nat.mul_div_cancel _ (by norm_num)
      simp only [trailingZerosAux, h2]
      rw [if_neg (by omega), hdiv, ih f (by rw [Nat.pow_succ] at hf; omega)]

theorem trailingZeros_two_pow (k : Nat) : trailingZeros (2 ^ k) = k := by
  have hpos : 0 < 2 ^ k := Nat.pos_pow_of_pos _ (by norm_num)
  rw [trailingZeros, if_neg (by omega)]
  exact trailingZerosAux_two_pow k (2 ^ k) le_rfl

theorem newCapacity_pow2 (c : Nat) : ∃ k, newCapacity c = 2 ^ k := by
  simp only [newCapacity, getNextPow2]
  set m := clog2Aux c c with hm
  by_cases h2 : 2 ≤ m
  · have hbs : bucketSize = 2 ^ 2 := rfl
    have hdiv : 2 ^ m / bucketSize = 2 ^ (m - 2) := by
      rw [hbs, Nat.pow_div h2 (by norm_num)]
    have hne : ¬ 2 ^ (m - 2) = 0 := by
      have := Nat.pos_pow_of_pos (m - 2) (show 0 < 2 by norm_num)
      omega
    rw [hdiv, if_neg hne]
    exact ⟨m - 2, rfl⟩
  · have hdiv : 2 ^ m / bucketSize = 0 := by
      interval_cases m <;> rfl
    rw [hdiv, if_pos rfl]
    exact ⟨0, rfl⟩

theorem newCapacity_pos (c : Nat) : 0 < newCapacity c := by
  obtain ⟨k, hk⟩ := newCapacity_pow2 c
  rw [hk]
  exact Nat.pos_pow_of_pos _ (by norm_num)

/-! ### Well-formedness of reachable filters -/

theorem NewFilter_WF (c : Nat) : (NewFilter c).WF := by
  obtain ⟨k, hk⟩ := newCapacity_pow2 c
  refine ⟨?_, ?_, ?_⟩
  · intro b hb
    rw [List.eq_of_mem_replicate hb]
    simp
  · show (List.replicate (newCapacity c) _).length = 2 ^ trailingZeros (newCapacity c)
    rw [List.length_replicate, hk, trailingZeros_two_pow]
  · show (0 : Nat) = nonzeroSlots (List.replicate (newCapacity c) (List.replicate bucketSize 0))
    induction newCapacity c with
    | zero => rfl
    | succ n ih =>
      rw [List.replicate_succ]
      simpa [nonzeroSlots, nzLen] using ih

theorem Insert_WF (cf : Filter) (H : HashFn) (data : List Nat) (r : Bool)
    (js : Nat → Nat) (hwf : cf.WF) : (cf.Insert H data r js).2.WF := by
  obtain ⟨hlen4, hpow, hcount⟩ := hwf
  obtain ⟨s1, s2, s3, s4, s5⟩ := Insert_spec cf H data r js hlen4 hpow
  refine ⟨s1, by rw [s2, s3, hpow], ?_⟩
  obtain ⟨hct, hcf⟩ := Insert_count cf H data r js
  by_cases hr : (cf.Insert H data r js).1 = true
  · obtain ⟨_, hnz⟩ := s4 hr
    rw [hct hr, hnz, hcount]
  · have hrf : (cf.Insert H data r js).1 = false := by
      cases hb : (cf.Insert H data r js).1
      · rfl
      · exact absurd hb hr
    obtain ⟨y, _, _, hnz⟩ := s5 hrf
    rw [hcf hrf, hnz, hcount]

theorem Lookup_true_of_mem (cf : Filter) (H : HashFn) (data : List Nat)
    (hmem : (getIndexAndFingerprint H data cf.BucketPow).2 ∈
        cf.Buckets.getD (getIndexAndFingerprint H data cf.BucketPow).1 [] ∨
      (getIndexAndFingerprint H data cf.BucketPow).2 ∈
        cf.Buckets.getD
          (getAltIndex H (getIndexAndFingerprint H data cf.BucketPow).2
            (getIndexAndFingerprint H data cf.BucketPow).1 cf.BucketPow) []) :
    cf.Lookup H data = true := by
  simp only [Filter.Lookup]
  set p := getIndexAndFingerprint H data cf.BucketPow with hp
  rcases hmem with h | h
  · rw [if_pos ((getFingerprintIndex_pos_iff _ _).2 h)]
  · by_cases h1 : getFingerprintIndex (cf.Buckets.getD p.1 []) p.2 > -1
    · rw [if_pos h1]
    · rw [if_neg h1]
      simpa using (getFingerprintIndex_pos_iff _ _).2 h

theorem Lookup_iff_mem (cf : Filter) (H : HashFn) (data : List Nat) :
    cf.Lookup H data = true ↔
      ((getIndexAndFingerprint H data cf.BucketPow).2 ∈
        cf.Buckets.getD (getIndexAndFingerprint H data cf.BucketPow).1 [] ∨
      (getIndexAndFingerprint H data cf.BucketPow).2 ∈
        cf.Buckets.getD
          (getAltIndex H (getIndexAndFingerprint H data cf.BucketPow).2
            (getIndexAndFingerprint H data cf.BucketPow).1 cf.BucketPow) []) := by
  constructor
  · intro hl
    simp only [Filter.Lookup] at hl
    set p := getIndexAndFingerprint H data cf.BucketPow with hp
    by_cases h1 : getFingerprintIndex (cf.Buckets.getD p.1 []) p.2 > -1
    · exact Or.inl ((getFingerprintIndex_pos_iff _ _).1 h1)
    · rw [if_neg h1] at hl
      exact Or.inr ((getFingerprintIndex_pos_iff _ _).1 (by simpa using hl))
  · exact Lookup_true_of_mem cf H data

theorem InsertUnique_WF (cf : Filter) (H : HashFn) (data : List Nat) (r : Bool)
    (js : Nat → Nat) (hwf : cf.WF) : (cf.InsertUnique H data r js).2.WF := by
  unfold Filter.InsertUnique
  by_cases hl : cf.Lookup H data
  · rw [if_pos hl]
    exact hwf
  · rw [if_neg hl]
    exact Insert_WF cf H data r js hwf

theorem Delete_WF (cf : Filter) (H : HashFn) (data : List Nat) (hwf : cf.WF) :
    (cf.Delete H data).2.WF := by
  obtain ⟨hlen4, hpow, hcount⟩ := hwf
  obtain ⟨hiff, hfalse, htrue⟩ := Delete_spec cf H data
  by_cases hr : (cf.Delete H data).1 = true
  · obtain ⟨hlen, hbp, hct, hcnt, hnz⟩ := htrue hr
    have hfp : (getIndexAndFingerprint H data cf.BucketPow).2 ≠ 0 :=
      getIndexAndFingerprint_snd_ne_zero H data cf.BucketPow
    refine ⟨Delete_len4 cf H data _ hlen4, by rw [hlen, hbp, hpow], ?_⟩
    rw [hct, hcount, if_pos (by omega)]
    omega
  · have hrf : (cf.Delete H data).1 = false := by
      cases hb : (cf.Delete H data).1
      · rfl
      · exact absurd hb hr
    rw [hfalse hrf]
    exact ⟨hlen4, hpow, hcount⟩

theorem Reset_WF (cf : Filter) (hwf : cf.WF) : (cf.Reset).WF := by
  obtain ⟨hlen4, hpow, _⟩ := hwf
  obtain ⟨hc, hlen, hbp, hnz, hl4⟩ := Reset_spec cf
  exact ⟨hl4 _ hlen4, by rw [hlen, hbp, hpow], by rw [hc, hnz]⟩

theorem applyOp_WF (H : HashFn) (f : Filter) (op : Op) (hwf : f.WF) :
    (applyOp H f op).WF := by
  cases op with
  | ins d r js => exact Insert_WF f H d r js hwf
  | insU d r js => exact InsertUnique_WF f H d r js hwf
  | del d => exact Delete_WF f H d hwf
  | reset => exact Reset_WF f hwf

theorem Reachable_WF (H : HashFn) (f : Filter) (hr : Reachable H f) : f.WF := by
  induction hr with
  | new c => exact NewFilter_WF c
  | step f op _ ih => exact applyOp_WF H f op ih

theorem Reachable_applyOps (H : HashFn) (f : Filter) (ops : List Op)
    (hr : Reachable H f) : Reachable H (applyOps H f ops) := by
  induction ops generalizing f with
  | nil => exact hr
  | cons op rest ih => exact ih _ (Reachable.step f op hr)

/-! ### `toBuckets` / `Encode` lemmas -/

theorem toBuckets_flatten (L : List (List Nat)) (h : ∀ b ∈ L, b.length = 4) :
    toBuckets L.flatten = L := by
  induction L with
  | nil => rfl
  | cons b rest ih =>
    have hb : b.length = 4 := h b (List.mem_cons_self _ _)
    have hrest : ∀ c ∈ rest, c.length = 4 := fun c hc => h c (List.mem_cons_of_mem _ hc)
    match b, hb with
    | [a1, a2, a3, a4], _ =>
      rw [List.flatten_cons]
      show toBuckets (a1 :: a2 :: a3 :: a4 :: rest.flatten) = _
      rw [toBuckets, ih hrest]

theorem flatten_length_four (L : List (List Nat)) (h : ∀ b ∈ L, b.length = 4) :
    L.flatten.length = 4 * L.length := by
  induction L with
  | nil => rfl
  | cons b rest ih =>
    have hb : b.length = 4 := h b (List.mem_cons_self _ _)
    have hrest : ∀ c ∈ rest, c.length = 4 := fun c hc => h c (List.mem_cons_of_mem _ hc)
    rw [List.flatten_cons, List.length_append, hb, ih hrest, List.length_cons]
    ring

theorem filterLen_flatten (L : List (List Nat)) :
    (L.flatten.filter (fun x => x != 0)).length = nonzeroSlots L := by
  induction L with
  | nil => rfl
  | cons b rest ih =>
    rw [List.flatten_cons, List.filter_append, List.length_append, ih]
    rfl

theorem toBuckets_length : ∀ bytes : List Nat, bytes.length % 4 = 0 →
    (toBuckets bytes).length = bytes.length / 4
  | [], _ => rfl
  | [a], h => by simp at h
  | [a, b], h => by simp at h
  | [a, b, c], h => by simp at h
  | a :: b :: c :: d :: rest, h => by
    have hr : rest.length % 4 = 0 := by
      simp only [List.length_cons] at h
      omega
    rw [toBuckets, List.length_cons, toBuckets_length rest hr]
    simp only [List.length_cons]
    omega

theorem nonzeroSlots_toBuckets : ∀ bytes : List Nat, bytes.length % 4 = 0 →
    nonzeroSlots (toBuckets bytes) = (bytes.filter (fun x => x != 0)).length
  | [], _ => rfl
  | [a], h => by simp at h
  | [a, b], h => by simp at h
  | [a, b, c], h => by simp at h
  | a :: b :: c :: d :: rest, h => by
    have hr : rest.length % 4 = 0 := by
      simp only [List.length_cons] at h
      omega
    have happ : a :: b :: c :: d :: rest = [a, b, c, d] ++ rest := rfl
    rw [toBuckets]
    show nzLen [a, b, c, d] + nonzeroSlots (toBuckets rest) = _
    rw [nonzeroSlots_toBuckets rest hr, happ, List.filter_append, List.length_append]
    rfl

/-! ### Claim theorems: the easy group -/

/-- The alternate-index transform is an involution on masked indices. -/
theorem getAltIndex_involution (H : HashFn) (fp bucketPow i : Nat)
    (hi : i < 2 ^ bucketPow) :
    getAltIndex H fp (getAltIndex H fp i bucketPow) bucketPow = i := by
  unfold getAltIndex
  apply Nat.eq_of_testBit_eq
  intro k
  rw [Nat.testBit_mod_two_pow, Nat.testBit_xor, Nat.testBit_mod_two_pow,
    Nat.testBit_xor]
  by_cases hk : k < bucketPow
  · simp [hk, Bool.xor_assoc]
  · have hik : i < 2 ^ k :=
      lt_of_lt_of_le hi (Nat.pow_le_pow_right (by norm_num) (Nat.le_of_not_lt hk))
    simp [hk, Nat.testBit_lt_two_pow hik]

/-- C3.  Alternate-index symmetry: for every secondary hash, every
fingerprint, every `bucketPow` and every index `i < 2 ^ bucketPow`,
`getAltIndex fp (getAltIndex fp i) = i`: the transform is its own inverse on
masked indices. -/
theorem alt_index_symmetry (H : HashFn) (fp bucketPow i : Nat)
    (hi : i < 2 ^ bucketPow) :
    getAltIndex H fp (getAltIndex H fp i bucketPow) bucketPow = i :=
  getAltIndex_involution H fp bucketPow i hi

/-- Witness for C3 at `fp = 3`, `bucketPow = 2`, `i = 1`. -/
theorem alt_index_symmetry_witness :
    1 < 2 ^ 2 ∧ getAltIndex H0 3 (getAltIndex H0 3 1 2) 2 = 1 :=
  ⟨by decide, alt_index_symmetry H0 3 2 1 (by decide)⟩

/-- C9.  Capacity rounding: `NewFilter 0` and `NewFilter 1` build exactly one
bucket, `NewFilter 1000000` builds `2 ^ 18 = 262144` buckets, and for every
requested capacity the bucket-array length is a power of two (namely
`2 ^ BucketPow`) and at least 1. -/
theorem capacity_rounding :
    (NewFilter 0).Buckets.length = 1 ∧
    (NewFilter 1).Buckets.length = 1 ∧
    (NewFilter 1000000).Buckets.length = 262144 ∧
    ∀ capacity : Nat, 1 ≤ (NewFilter capacity).Buckets.length ∧
      (NewFilter capacity).Buckets.length = 2 ^ (NewFilter capacity).BucketPow := by
  have hlen : ∀ c, (NewFilter c).Buckets.length = newCapacity c := by
    intro c
    simp [NewFilter]
  refine ⟨?_, ?_, ?_, ?_⟩
  · rw [hlen]
    decide
  · rw [hlen]
    decide
  · rw [hlen]
    decide
  · intro c
    obtain ⟨k, hk⟩ := newCapacity_pow2 c
    constructor
    · rw [hlen]
      exact newCapacity_pos c
    · rw [hlen]
      show newCapacity c = 2 ^ trailingZeros (newCapacity c)
      rw [hk, trailingZeros_two_pow]

/-- C8.  Decode validation: the empty input fails with the empty-input error,
a length that is not a multiple of 4 fails with the size-mismatch error
(e.g. `[1,2,3]`), every non-empty multiple-of-4 input succeeds, and an error
occurs exactly when the input is empty or has invalid length. -/
theorem decode_validation :
    Decode [] = Except.error decodeEmptyErr ∧
    Decode [1, 2, 3] = Except.error (decodeSizeErr 3) ∧
    (∀ bytes : List Nat, bytes ≠ [] → bytes.length % 4 = 0 →
      ∃ f, Decode bytes = Except.ok f) ∧
    ∀ bytes : List Nat,
      (∃ e, Decode bytes = Except.error e) ↔
        (bytes = [] ∨ bytes.length % 4 ≠ 0) := by
  have hok : ∀ bytes : List Nat, bytes ≠ [] → bytes.length % 4 = 0 →
      Decode bytes = Except.ok
        { Buckets := toBuckets bytes
          Count := (bytes.filter (fun x => x != 0)).length
          BucketPow := trailingZeros (bytes.length / 4) } := by
    intro bytes hne hmod
    have hlen : bytes.length ≠ 0 := fun h => hne (List.eq_nil_of_length_eq_zero h)
    unfold Decode
    rw [if_neg (by simpa [bucketSize] using hmod), if_neg hlen]
  refine ⟨rfl, rfl, ?_, ?_⟩
  · intro bytes hne hmod
    exact ⟨_, hok bytes hne hmod⟩
  · intro bytes
    constructor
    · rintro ⟨e, he⟩
      by_cases h1 : bytes = []
      · exact Or.inl h1
      · by_cases h2 : bytes.length % 4 = 0
        · rw [hok bytes h1 h2] at he
          cases he
        · exact Or.inr h2
    · rintro (rfl | h)
      · exact ⟨decodeEmptyErr, rfl⟩
      · refine ⟨decodeSizeErr bytes.length, ?_⟩
        unfold Decode
        rw [if_pos (by simpa [bucketSize] using h)]

/-- Witness for C8's universally quantified clauses at `bytes = [0,0,0,0]`. -/
theorem decode_validation_witness :
    (∃ f, Decode [0, 0, 0, 0] = Except.ok f) ∧
    ((∃ e, Decode [0, 0, 0, 0] = Except.error e) ↔
      (([0, 0, 0, 0] : List Nat) = [] ∨ ([0, 0, 0, 0] : List Nat).length % 4 ≠ 0)) :=
  ⟨decode_validation.2.2.1 [0, 0, 0, 0] (by decide) (by decide),
    decode_validation.2.2.2 [0, 0, 0, 0]⟩

/-- C10.  Decode accepts non-power-of-two layouts: every non-empty input
whose length is a multiple of 4 is accepted, with `BucketPow` set to the
number of trailing zero bits of the bucket count; in particular 24 bytes give
6 buckets and `BucketPow = 1`, violating `2 ^ BucketPow = len(Buckets)`. -/
theorem decode_non_pow2 :
    (∀ bytes : List Nat, bytes ≠ [] → bytes.length % 4 = 0 →
      ∃ f, Decode bytes = Except.ok f ∧
        f.BucketPow = trailingZeros (bytes.length / 4) ∧
        f.Buckets.length = bytes.length / 4) ∧
    ∃ f, Decode (List.replicate 24 0) = Except.ok f ∧
      f.Buckets.length = 6 ∧ f.BucketPow = 1 ∧
      2 ^ f.BucketPow ≠ f.Buckets.length := by
  constructor
  · intro bytes hne hmod
    have hlen : bytes.length ≠ 0 := fun h => hne (List.eq_nil_of_length_eq_zero h)
    refine ⟨{ Buckets := toBuckets bytes
              Count := (bytes.filter (fun x => x != 0)).length
              BucketPow := trailingZeros (bytes.length / 4) },
      ?_, rfl, toBuckets_length bytes hmod⟩
    unfold Decode
    rw [if_neg (by simpa [bucketSize] using hmod), if_neg hlen]
  · exact ⟨{ Buckets := List.replicate 6 (List.replicate 4 0), Count := 0,
             BucketPow := 1 }, by rfl, by decide, by decide, by decide⟩

/-- Witness for C10's universally quantified clause at a 8-byte input. -/
theorem decode_non_pow2_witness :
    ∃ f, Decode [1, 0, 0, 0, 2, 0, 0, 0] = Except.ok f ∧
      f.BucketPow = trailingZeros (([1, 0, 0, 0, 2, 0, 0, 0] : List Nat).length / 4) ∧
      f.Buckets.length = ([1, 0, 0, 0, 2, 0, 0, 0] : List Nat).length / 4 :=
  decode_non_pow2.1 [1, 0, 0, 0, 2, 0, 0, 0] (by decide) (by decide)

/-- C6.  Insert count delta: whenever `Insert` returns true, `Count` grows by
exactly 1 (the eviction swaps never touch `Count`; only the one successful
low-level insert increments it). -/
theorem insert_count_delta (H : HashFn) (f : Filter) (data : List Nat)
    (r : Bool) (js : Nat → Nat) (h : (f.Insert H data r js).1 = true) :
    (f.Insert H data r js).2.Count = f.Count + 1 :=
  (Insert_count f H data r js).1 h

/-- Witness for C6: a successful insert into `NewFilter 4`. -/
theorem insert_count_delta_witness :
    ((NewFilter 4).Insert H0 [0] true js0).1 = true ∧
    ((NewFilter 4).Insert H0 [0] true js0).2.Count = (NewFilter 4).Count + 1 :=
  ⟨by decide, insert_count_delta H0 (NewFilter 4) [0] true js0 (by decide)⟩

/-- C2.  Count invariant: on every reachable filter, and on every filter
`Decode` returns, `CountEntries()` equals the number of non-sentinel slots
across all buckets. -/
theorem count_invariant :
    (∀ (H : HashFn) (f : Filter), Reachable H f →
      f.CountEntries = nonzeroSlots f.Buckets) ∧
    ∀ (bytes : List Nat) (f : Filter), Decode bytes = Except.ok f →
      f.CountEntries = nonzeroSlots f.Buckets := by
  constructor
  · intro H f hr
    exact (Reachable_WF H f hr).2.2
  · intro bytes f hdec
    unfold Decode at hdec
    by_cases h1 : bytes.length % bucketSize ≠ 0
    · rw [if_pos h1] at hdec
      cases hdec
    · rw [if_neg h1] at hdec
      by_cases h2 : bytes.length = 0
      · rw [if_pos h2] at hdec
        cases hdec
      · rw [if_neg h2] at hdec
        cases hdec
        show (bytes.filter (fun x => x != 0)).length = _
        rw [nonzeroSlots_toBuckets bytes (by simpa [bucketSize] using h1)]

/-- Witness for C2 at the reachable filter `exFull` and at a decoded one. -/
theorem count_invariant_witness :
    exFull.CountEntries = nonzeroSlots exFull.Buckets ∧
    Filter.CountEntries { Buckets := [[1, 0, 0, 0]], Count := 1, BucketPow := 0 } =
      nonzeroSlots [[1, 0, 0, 0]] :=
  ⟨count_invariant.1 H0 exFull
      (Reachable_applyOps H0 (NewFilter 1) exOps (Reachable.new 1)),
    count_invariant.2 [1, 0, 0, 0]
      { Buckets := [[1, 0, 0, 0]], Count := 1, BucketPow := 0 } (by rfl)⟩

/-- C4.  Encode/Decode round-trip: for every reachable filter `f`,
`Decode (Encode f)` succeeds and returns a filter with the same buckets,
the same count and the same (re-derived) `BucketPow`, and `Encode` emits
exactly `len(Buckets) * 4` bytes in bucket order then slot order. -/
theorem encode_decode_roundtrip (H : HashFn) (f : Filter)
    (hr : Reachable H f) :
    Decode f.Encode = Except.ok f ∧
    f.Encode.length = f.Buckets.length * bucketSize := by
  obtain ⟨hlen4, hpow, hcount⟩ := Reachable_WF H f hr
  have hlen4' : ∀ b ∈ f.Buckets, b.length = 4 := hlen4
  have hflat : f.Encode.length = 4 * f.Buckets.length :=
    flatten_length_four f.Buckets hlen4'
  have hpos : 0 < f.Buckets.length := by
    rw [hpow]
    exact Nat.pos_pow_of_pos _ (by norm_num)
  have hmod : f.Encode.length % 4 = 0 := by
    rw [hflat]
    omega
  have hne : f.Encode.length ≠ 0 := by
    rw [hflat]
    omega
  constructor
  · unfold Decode
    rw [if_neg (by simpa [bucketSize] using hmod), if_neg hne]
    have hbuckets : toBuckets f.Encode = f.Buckets :=
      toBuckets_flatten f.Buckets hlen4'
    have hdivlen : f.Encode.length / 4 = f.Buckets.length := by
      rw [hflat]
      omega
    have hcnt : (f.Encode.filter (fun x => x != 0)).length = f.Count := by
      show (f.Buckets.flatten.filter (fun x => x != 0)).length = f.Count
      rw [filterLen_flatten, hcount]
    have hbp : trailingZeros (f.Encode.length / 4) = f.BucketPow := by
      rw [hdivlen, hpow, trailingZeros_two_pow]
    obtain ⟨B, C, P⟩ := f
    simp only at hbuckets hcnt hbp ⊢
    rw [hbuckets, hcnt, hbp]
  · rw [hflat]
    show 4 * f.Buckets.length = f.Buckets.length * 4
    ring

/-- Witness for C4 at the reachable filter `exFull`. -/
theorem encode_decode_roundtrip_witness :
    Decode exFull.Encode = Except.ok exFull ∧
    exFull.Encode.length = exFull.Buckets.length * bucketSize :=
  encode_decode_roundtrip H0 exFull
    (Reachable_applyOps H0 (NewFilter 1) exOps (Reachable.new 1))

/-! ### Bridges between counts and the stored-fingerprint multiset -/

theorem count_le_nzLen (b : List Nat) (x : Nat) (hx : x ≠ 0) :
    b.count x ≤ nzLen b := by
  have hcf : b.count x = (b.filter (fun y => y != 0)).count x :=
    (List.count_filter (by simp [hx])).symm
  rw [hcf]
  exact List.count_le_length _ _

theorem cntB_le_nonzeroSlots (x : Nat) (L : List (List Nat)) (hx : x ≠ 0) :
    cntB x L ≤ nonzeroSlots L := by
  induction L with
  | nil => exact le_refl _
  | cons b rest ih =>
    have := count_le_nzLen b x hx
    simp only [cntB, nonzeroSlots, List.map_cons, List.sum_cons] at ih ⊢
    omega

theorem cntB_ge_getD (x : Nat) (L : List (List Nat)) (i : Nat)
    (hi : i < L.length) : (L.getD i []).count x ≤ cntB x L := by
  induction L generalizing i with
  | nil => simp at hi
  | cons b rest ih =>
    cases i with
    | zero =>
      simp only [List.getD_cons_zero, cntB, List.map_cons, List.sum_cons]
      omega
    | succ i =>
      have := ih i (by simpa using hi)
      simp only [List.getD_cons_succ, cntB, List.map_cons, List.sum_cons] at this ⊢
      omega

theorem count_fpMultiset (f : Filter) (x : Nat) (hx : x ≠ 0) :
    Multiset.count x (fpMultiset f) = cntB x f.Buckets := by
  show Multiset.count x (↑(f.Buckets.flatten.filter (fun y => y != 0))) = _
  rw [Multiset.coe_count, List.count_filter (by simp [hx]), List.count_flatten]
  rfl

theorem count_fpMultiset_zero (f : Filter) :
    Multiset.count 0 (fpMultiset f) = 0 := by
  show Multiset.count 0 (↑(f.Buckets.flatten.filter (fun y => y != 0))) = 0
  rw [Multiset.coe_count]
  rw [List.count_eq_zero]
  intro hmem
  have := List.of_mem_filter hmem
  simp at this

/-! ### Claim theorems: Delete and failed Insert -/

/-- C7.  Delete contract: on every reachable filter, `Delete(data)` returns
true iff the derived fingerprint occupies a slot of one of its two candidate
buckets; on success exactly one occurrence of the fingerprint is removed from
the stored multiset and `Count` drops by exactly 1 (never below 0); on
failure the filter is unchanged. -/
theorem delete_contract (H : HashFn) (f : Filter) (data : List Nat)
    (hr : Reachable H f) :
    ((f.Delete H data).1 = true ↔
      ((getIndexAndFingerprint H data f.BucketPow).2 ∈
        f.Buckets.getD (getIndexAndFingerprint H data f.BucketPow).1 [] ∨
       (getIndexAndFingerprint H data f.BucketPow).2 ∈
        f.Buckets.getD
          (getAltIndex H (getIndexAndFingerprint H data f.BucketPow).2
            (getIndexAndFingerprint H data f.BucketPow).1 f.BucketPow) [])) ∧
    ((f.Delete H data).1 = true →
      (f.Delete H data).2.Count + 1 = f.Count ∧
      fpMultiset (f.Delete H data).2 =
        (fpMultiset f).erase (getIndexAndFingerprint H data f.BucketPow).2) ∧
    ((f.Delete H data).1 = false → (f.Delete H data).2 = f) := by
  obtain ⟨hlen4, hpow, hcount⟩ := Reachable_WF H f hr
  obtain ⟨hiff, hfalse, htrue⟩ := Delete_spec f H data
  have hfp : (getIndexAndFingerprint H data f.BucketPow).2 ≠ 0 :=
    getIndexAndFingerprint_snd_ne_zero H data f.BucketPow
  refine ⟨hiff, ?_, hfalse⟩
  intro ht
  obtain ⟨hlen, hbp, hct, hcnt, hnz⟩ := htrue ht
  have hpresent : 1 ≤ cntB (getIndexAndFingerprint H data f.BucketPow).2 f.Buckets := by
    rcases hiff.1 ht with hmem | hmem
    · have hk : (getIndexAndFingerprint H data f.BucketPow).1 < f.Buckets.length := by
        by_contra hk
        rw [List.getD_eq_default _ _ (Nat.le_of_not_lt hk)] at hmem
        cases hmem
      have hcpos : 0 < (f.Buckets.getD (getIndexAndFingerprint H data f.BucketPow).1 []).count
          (getIndexAndFingerprint H data f.BucketPow).2 :=
        Nat.pos_of_ne_zero (fun h0 => (List.count_eq_zero.1 h0) hmem)
      have := cntB_ge_getD (getIndexAndFingerprint H data f.BucketPow).2
        f.Buckets (getIndexAndFingerprint H data f.BucketPow).1 hk
      omega
    · have hk : getAltIndex H (getIndexAndFingerprint H data f.BucketPow).2
          (getIndexAndFingerprint H data f.BucketPow).1 f.BucketPow < f.Buckets.length := by
        by_contra hk
        rw [List.getD_eq_default _ _ (Nat.le_of_not_lt hk)] at hmem
        cases hmem
      have hcpos : 0 < (f.Buckets.getD (getAltIndex H
          (getIndexAndFingerprint H data f.BucketPow).2
          (getIndexAndFingerprint H data f.BucketPow).1 f.BucketPow) []).count
          (getIndexAndFingerprint H data f.BucketPow).2 :=
        Nat.pos_of_ne_zero (fun h0 => (List.count_eq_zero.1 h0) hmem)
      have := cntB_ge_getD (getIndexAndFingerprint H data f.BucketPow).2
        f.Buckets (getAltIndex H (getIndexAndFingerprint H data f.BucketPow).2
          (getIndexAndFingerprint H data f.BucketPow).1 f.BucketPow) hk
      omega
  have hcpos : 0 < f.Count := by
    have := cntB_le_nonzeroSlots (getIndexAndFingerprint H data f.BucketPow).2
      f.Buckets hfp
    omega
  constructor
  · rw [hct, if_pos hcpos]
    omega
  · apply Multiset.ext.2
    intro a
    by_cases ha : a = 0
    · subst ha
      rw [count_fpMultiset_zero,
        Multiset.count_erase_of_ne (Ne.symm hfp), count_fpMultiset_zero]
    · by_cases haf : a = (getIndexAndFingerprint H data f.BucketPow).2
      · have hc := hcnt a ha
        rw [if_pos haf] at hc
        rw [haf] at hc ⊢
        rw [count_fpMultiset _ _ hfp, Multiset.count_erase_self,
          count_fpMultiset _ _ hfp]
        omega
      · rw [count_fpMultiset _ _ ha, Multiset.count_erase_of_ne haf,
          count_fpMultiset _ _ ha]
        have := hcnt a ha
        simp only [if_neg haf] at this
        omega

/-- Witness for C7: deleting `[1]` (fingerprint 2) from the reachable filter
`exFull`, whose single bucket is `[1,2,3,4]`. -/
theorem delete_contract_witness :
    ((exFull.Delete H0 [1]).1 = true ↔
      ((getIndexAndFingerprint H0 [1] exFull.BucketPow).2 ∈
        exFull.Buckets.getD (getIndexAndFingerprint H0 [1] exFull.BucketPow).1 [] ∨
       (getIndexAndFingerprint H0 [1] exFull.BucketPow).2 ∈
        exFull.Buckets.getD
          (getAltIndex H0 (getIndexAndFingerprint H0 [1] exFull.BucketPow).2
            (getIndexAndFingerprint H0 [1] exFull.BucketPow).1 exFull.BucketPow) [])) ∧
    ((exFull.Delete H0 [1]).1 = true →
      (exFull.Delete H0 [1]).2.Count + 1 = exFull.Count ∧
      fpMultiset (exFull.Delete H0 [1]).2 =
        (fpMultiset exFull).erase (getIndexAndFingerprint H0 [1] exFull.BucketPow).2) ∧
    ((exFull.Delete H0 [1]).1 = false → (exFull.Delete H0 [1]).2 = exFull) :=
  delete_contract H0 exFull [1]
    (Reachable_applyOps H0 (NewFilter 1) exOps (Reachable.new 1))

set_option maxRecDepth 100000 in
/-- Counterexample to C5 as stated: `exFull` is reachable, the insert of
`[4]` (fingerprint 5) fails after the full 500-kick eviction loop, and the
multiset of stored fingerprints is NOT preserved: fingerprint 2 has been
displaced by the incoming fingerprint 5. -/
theorem insert_fail_multiset_cex :
    Reachable H0 exFull ∧
    (exFull.Insert H0 [4] true js0).1 = false ∧
    fpMultiset (exFull.Insert H0 [4] true js0).2 ≠ fpMultiset exFull :=
  ⟨Reachable_applyOps H0 (NewFilter 1) exOps (Reachable.new 1),
    by decide, by decide⟩

/-- C5 as amended.  Failed-insert near-preservation: when `Insert` returns
false on a reachable filter (for any random draws), `Count` is unchanged and
the stored multiset after the call plus the single dropped (final in-hand)
fingerprint equals the multiset before the call plus the inserted
fingerprint: every swap is a relocation, and exactly one fingerprint — the
one left in hand when the 500 iterations run out — is lost. -/
theorem insert_fail_multiset (H : HashFn) (f : Filter) (data : List Nat)
    (r : Bool) (js : Nat → Nat) (hr : Reachable H f)
    (hfail : (f.Insert H data r js).1 = false) :
    (f.Insert H data r js).2.Count = f.Count ∧
    ∃ y, y ≠ 0 ∧
      fpMultiset (f.Insert H data r js).2 + {y} =
        fpMultiset f + {(getIndexAndFingerprint H data f.BucketPow).2} := by
  obtain ⟨hlen4, hpow, _⟩ := Reachable_WF H f hr
  obtain ⟨_, _, _, _, s5⟩ := Insert_spec f H data r js hlen4 hpow
  obtain ⟨y, hy, hcnt, _⟩ := s5 hfail
  have hfp : (getIndexAndFingerprint H data f.BucketPow).2 ≠ 0 :=
    getIndexAndFingerprint_snd_ne_zero H data f.BucketPow
  refine ⟨(Insert_count f H data r js).2 hfail, y, hy, ?_⟩
  apply Multiset.ext.2
  intro a
  rw [Multiset.count_add, Multiset.count_add, Multiset.count_singleton,
    Multiset.count_singleton]
  by_cases ha : a = 0
  · subst ha
    rw [count_fpMultiset_zero, count_fpMultiset_zero,
      if_neg (Ne.symm hy), if_neg (Ne.symm hfp)]
  · rw [count_fpMultiset _ _ ha, count_fpMultiset _ _ ha]
    exact hcnt a ha

set_option maxRecDepth 100000 in
/-- Witness for the amended C5 at the reachable filter `exFull`. -/
theorem insert_fail_multiset_witness :
    (exFull.Insert H0 [4] true js0).1 = false ∧
    ((exFull.Insert H0 [4] true js0).2.Count = exFull.Count ∧
      ∃ y, y ≠ 0 ∧
        fpMultiset (exFull.Insert H0 [4] true js0).2 + {y} =
          fpMultiset exFull + {(getIndexAndFingerprint H0 [4] exFull.BucketPow).2}) :=
  ⟨by decide,
    insert_fail_multiset H0 exFull [4] true js0
      (Reachable_applyOps H0 (NewFilter 1) exOps (Reachable.new 1)) (by decide)⟩

/-! ### Tracking one fingerprint in its candidate bucket pair -/

theorem pairCnt_eq (fp i1 i2 : Nat) (L : List (List Nat)) :
    pairCnt fp i1 i2 L =
      (L.getD i1 []).count fp +
        (if i2 = i1 then 0 else (L.getD i2 []).count fp) := by
  unfold pairCnt pairList
  by_cases h : i2 = i1 <;> simp [h]

theorem pairCnt_set (fp i1 i2 : Nat) (L : List (List Nat)) (i : Nat)
    (b' : List Nat) (hi : i < L.length) :
    pairCnt fp i1 i2 (L.set i b') +
      (if i = i1 ∨ i = i2 then (L.getD i []).count fp else 0) =
    pairCnt fp i1 i2 L +
      (if i = i1 ∨ i = i2 then b'.count fp else 0) := by
  rw [pairCnt_eq, pairCnt_eq]
  have hlen : (L.set i b').length = L.length := List.length_set _ _ _
  by_cases h21 : i2 = i1
  · by_cases hii : i = i1
    · subst hii
      rw [getD_set_self _ _ _ _ hi]
      simp [h21]
      omega
    · rw [getD_set_ne _ _ _ _ _ hii]
      have : ¬ (i = i1 ∨ i = i2) := by
        rintro (h | h)
        · exact hii h
        · exact hii (h.trans h21)
      simp [h21, this, hii]
  · by_cases hii1 : i = i1
    · subst hii1
      rw [getD_set_self _ _ _ _ hi, getD_set_ne _ _ _ _ _ (fun h => h21 h.symm)]
      simp [h21]
      omega
    · by_cases hii2 : i = i2
      · subst hii2
        rw [getD_set_self _ _ _ _ hi, getD_set_ne _ _ _ _ _ hii1]
        simp [h21, hii1]
        omega
      · rw [getD_set_ne _ _ _ _ _ hii1, getD_set_ne _ _ _ _ _ hii2]
        have : ¬ (i = i1 ∨ i = i2) := by
          rintro (h | h)
          · exact hii1 h
          · exact hii2 h
        simp [this]

theorem pairCnt_insert_of_true (cf : Filter) (fp0 i : Nat)
    (h : (cf.insert fp0 i).1 = true) (fp i1 i2 : Nat) (hfp : fp ≠ 0) :
    pairCnt fp i1 i2 (cf.insert fp0 i).2.Buckets =
      pairCnt fp i1 i2 cf.Buckets + contrib fp i1 i2 fp0 i := by
  have hlt := insert_lt_of_true cf fp0 i h
  by_cases hb : (bucketInsert (cf.Buckets.getD i []) fp0).1 = true
  · rw [insert_eq_pos cf fp0 i hb]
    dsimp only
    have hset := pairCnt_set fp i1 i2 cf.Buckets i
      (bucketInsert (cf.Buckets.getD i []) fp0).2 hlt
    have hcnt := bucketInsert_count (cf.Buckets.getD i []) fp0 fp hb hfp
    unfold contrib
    by_cases hpair : i = i1 ∨ i = i2
    · rw [if_pos hpair] at hset
      rw [if_pos hpair] at hset
      by_cases hf : fp0 = fp
      · rw [if_pos ⟨hf, hpair⟩]
        rw [if_pos hf.symm] at hcnt
        omega
      · rw [if_neg (fun hc => hf hc.1)]
        rw [if_neg (fun hc => hf hc.symm)] at hcnt
        omega
    · rw [if_neg hpair] at hset
      rw [if_neg hpair] at hset
      rw [if_neg (fun hc => hpair hc.2)]
      omega
  · rw [insert_eq_neg cf fp0 i hb] at h
    cases h

theorem pairCnt_insert_of_false (cf : Filter) (fp0 i : Nat)
    (h : (cf.insert fp0 i).1 = false) (fp i1 i2 : Nat) :
    pairCnt fp i1 i2 (cf.insert fp0 i).2.Buckets = pairCnt fp i1 i2 cf.Buckets := by
  rw [insert_eq_of_false cf fp0 i h]

theorem alt_pair_closure (H : HashFn) (fp pow i1 i : Nat)
    (h1 : i1 < 2 ^ pow) (hi : i < 2 ^ pow) :
    (getAltIndex H fp i pow = i1 ∨
      getAltIndex H fp i pow = getAltIndex H fp i1 pow) ↔
    (i = i1 ∨ i = getAltIndex H fp i1 pow) := by
  constructor
  · rintro (h | h)
    · right
      rw [← h, getAltIndex_involution H fp pow i hi]
    · left
      have := congrArg (fun k => getAltIndex H fp k pow) h
      simpa [getAltIndex_involution H fp pow i hi,
        getAltIndex_involution H fp pow i1 h1] using this
  · rintro (rfl | h)
    · right
      rfl
    · left
      rw [h]
      exact getAltIndex_involution H fp pow i1 h1

theorem pairCnt_swap_step (H : HashFn) (fp i1 pow : Nat) (h1 : i1 < 2 ^ pow)
    (L : List (List Nat)) (i j h : Nat)
    (hlen : L.length = 2 ^ pow) (hi : i < L.length)
    (hj : j < (L.getD i []).length) :
    pairCnt fp i1 (getAltIndex H fp i1 pow) (L.set i ((L.getD i []).set j h)) +
      contrib fp i1 (getAltIndex H fp i1 pow) ((L.getD i []).getD j 0)
        (getAltIndex H ((L.getD i []).getD j 0) i pow) =
    pairCnt fp i1 (getAltIndex H fp i1 pow) L +
      contrib fp i1 (getAltIndex H fp i1 pow) h i := by
  have hset := pairCnt_set fp i1 (getAltIndex H fp i1 pow) L i
    ((L.getD i []).set j h) hi
  have hcs := count_set (L.getD i []) j h fp hj
  have hipow : i < 2 ^ pow := hlen ▸ hi
  have hcl := alt_pair_closure H fp pow i1 i h1 hipow
  unfold contrib
  by_cases hv : (L.getD i []).getD j 0 = fp
  · rw [hv] at hcs ⊢
    simp only [eq_self_iff_true, true_and, if_true] at hcs ⊢
    by_cases hpair : i = i1 ∨ i = getAltIndex H fp i1 pow
    · rw [if_pos (hcl.2 hpair)]
      rw [if_pos hpair, if_pos hpair] at hset
      by_cases hh : h = fp
      · rw [if_pos ⟨hh, hpair⟩]
        rw [if_pos (show fp = h from hh.symm)] at hcs
        omega
      · rw [if_neg (fun hc => hh hc.1)]
        rw [if_neg (fun hc => hh hc.symm)] at hcs
        omega
    · rw [if_neg (fun hc => hpair (hcl.1 hc)), if_neg (fun hc => hpair hc.2)]
      rw [if_neg hpair, if_neg hpair] at hset
      omega
  · rw [if_neg (fun hc => hv hc.1)]
    by_cases hpair : i = i1 ∨ i = getAltIndex H fp i1 pow
    · rw [if_pos hpair, if_pos hpair] at hset
      rw [if_neg (fun hc => hv hc.symm)] at hcs
      by_cases hh : h = fp
      · rw [if_pos ⟨hh, hpair⟩]
        rw [if_pos (show fp = h from hh.symm)] at hcs
        omega
      · rw [if_neg (fun hc => hh hc.1)]
        rw [if_neg (fun hc => hh hc.symm)] at hcs
        omega
    · rw [if_neg (fun hc => hpair hc.2)]
      rw [if_neg hpair, if_neg hpair] at hset
      omega

theorem reinsert_pairCnt (H : HashFn) (fp i1 pow : Nat) (hfp : fp ≠ 0)
    (h1 : i1 < 2 ^ pow) : ∀ (fuel : Nat) (js : Nat → Nat) (cf : Filter)
    (h i : Nat),
    cf.BucketPow = pow →
    (∀ b ∈ cf.Buckets, b.length = bucketSize) →
    cf.Buckets.length = 2 ^ pow →
    i < cf.Buckets.length →
    (cf.reinsert H h i fuel js).1 = true →
    pairCnt fp i1 (getAltIndex H fp i1 pow) (cf.reinsert H h i fuel js).2.Buckets =
      pairCnt fp i1 (getAltIndex H fp i1 pow) cf.Buckets +
        contrib fp i1 (getAltIndex H fp i1 pow) h i := by
  intro fuel
  induction fuel with
  | zero =>
    intro js cf h i _ _ _ _ ht
    simp [Filter.reinsert] at ht
  | succ fuel ih =>
    intro js cf h i hbp hlen4 hlen hi ht
    subst hbp
    have hbmem : cf.Buckets.getD i [] ∈ cf.Buckets := getD_mem _ _ _ hi
    have hblen : (cf.Buckets.getD i []).length = bucketSize := hlen4 _ hbmem
    have hjlt : js 0 % bucketSize < (cf.Buckets.getD i []).length := by
      rw [hblen]
      exact Nat.mod_lt _ (by norm_num [bucketSize])
    simp only [Filter.reinsert] at ht ⊢
    set v := (cf.Buckets.getD i []).getD (js 0 % bucketSize) 0 with hvdef
    set cf2 : Filter :=
      { cf with
        Buckets := cf.Buckets.set i
          ((cf.Buckets.getD i []).set (js 0 % bucketSize) h) } with hcf2
    set i2 := getAltIndex H v i cf.BucketPow with hi2def
    have hswap := pairCnt_swap_step H fp i1 cf.BucketPow h1 cf.Buckets i
      (js 0 % bucketSize) h hlen hi hjlt
    rw [← hvdef, ← hi2def] at hswap
    have hlen2 : cf2.Buckets.length = cf.Buckets.length := by
      rw [hcf2]
      simp
    have hlen42 : ∀ b ∈ cf2.Buckets, b.length = bucketSize := by
      rw [hcf2]
      refine len4_set _ _ _ _ hlen4 ?_
      rw [List.length_set, hblen]
    by_cases hr : (cf2.insert v i2).1 = true
    · rw [if_pos hr] at ht ⊢
      rw [pairCnt_insert_of_true cf2 v i2 hr fp i1 _ hfp]
      have : pairCnt fp i1 (getAltIndex H fp i1 cf.BucketPow) cf2.Buckets +
          contrib fp i1 (getAltIndex H fp i1 cf.BucketPow) v i2 =
          pairCnt fp i1 (getAltIndex H fp i1 cf.BucketPow) cf.Buckets +
          contrib fp i1 (getAltIndex H fp i1 cf.BucketPow) h i := by
        rw [hcf2]
        exact hswap
      omega
    · rw [if_neg hr] at ht ⊢
      have hr2 : (cf2.insert v i2).2 = cf2 :=
        insert_eq_of_false cf2 v i2 (by simpa using hr)
      rw [hr2] at ht ⊢
      have hi2lt : i2 < cf2.Buckets.length := by
        rw [hlen2, hlen, hi2def]
        exact getAltIndex_lt H v i cf.BucketPow
      have hihv := ih (fun k => js (k + 1)) cf2 v i2 rfl hlen42
        (by rw [hlen2, hlen]) hi2lt ht
      rw [hihv]
      have : pairCnt fp i1 (getAltIndex H fp i1 cf.BucketPow) cf2.Buckets +
          contrib fp i1 (getAltIndex H fp i1 cf.BucketPow) v i2 =
          pairCnt fp i1 (getAltIndex H fp i1 cf.BucketPow) cf.Buckets +
          contrib fp i1 (getAltIndex H fp i1 cf.BucketPow) h i := by
        rw [hcf2]
        exact hswap
      omega

theorem contrib_self_left (fp i1 i2 : Nat) : contrib fp i1 i2 fp i1 = 1 := by
  unfold contrib
  rw [if_pos ⟨rfl, Or.inl rfl⟩]

theorem contrib_self_right (fp i1 i2 : Nat) : contrib fp i1 i2 fp i2 = 1 := by
  unfold contrib
  rw [if_pos ⟨rfl, Or.inr rfl⟩]

theorem Insert_pairCnt_self (H : HashFn) (cf : Filter) (d : List Nat)
    (r : Bool) (js : Nat → Nat)
    (hlen4 : ∀ b ∈ cf.Buckets, b.length = bucketSize)
    (hpow : cf.Buckets.length = 2 ^ cf.BucketPow)
    (ht : (cf.Insert H d r js).1 = true) :
    1 ≤ pairCnt (getIndexAndFingerprint H d cf.BucketPow).2
      (getIndexAndFingerprint H d cf.BucketPow).1
      (getAltIndex H (getIndexAndFingerprint H d cf.BucketPow).2
        (getIndexAndFingerprint H d cf.BucketPow).1 cf.BucketPow)
      (cf.Insert H d r js).2.Buckets := by
  have hfp : (getIndexAndFingerprint H d cf.BucketPow).2 ≠ 0 :=
    getIndexAndFingerprint_snd_ne_zero H d cf.BucketPow
  have h1 : (getIndexAndFingerprint H d cf.BucketPow).1 < 2 ^ cf.BucketPow :=
    getIndex_lt H d cf.BucketPow
  simp only [Filter.Insert] at ht ⊢
  set p := getIndexAndFingerprint H d cf.BucketPow with hp
  set i2v := getAltIndex H p.2 p.1 cf.BucketPow with hi2
  by_cases hr1 : (cf.insert p.2 p.1).1 = true
  · rw [if_pos hr1] at ht ⊢
    rw [pairCnt_insert_of_true cf p.2 p.1 hr1 p.2 p.1 i2v hfp,
      contrib_self_left]
    omega
  · rw [if_neg hr1] at ht ⊢
    by_cases hr2 : (cf.insert p.2 i2v).1 = true
    · rw [if_pos hr2] at ht ⊢
      rw [pairCnt_insert_of_true cf p.2 i2v hr2 p.2 p.1 i2v hfp,
        contrib_self_right]
      omega
    · rw [if_neg hr2] at ht ⊢
      have hrandlt : randi r p.1 i2v < cf.Buckets.length := by
        cases r
        · rw [hpow]
          exact getAltIndex_lt H p.2 p.1 cf.BucketPow
        · rw [hpow]
          exact h1
      rw [reinsert_pairCnt H p.2 p.1 cf.BucketPow hfp h1 maxCuckooCount js cf
        p.2 (randi r p.1 i2v) rfl hlen4 hpow hrandlt ht]
      have hcon : contrib p.2 p.1 (getAltIndex H p.2 p.1 cf.BucketPow) p.2
          (randi r p.1 i2v) = 1 := by
        cases r
        · rw [show randi false p.1 i2v = i2v from rfl, hi2]
          exact contrib_self_right p.2 p.1 _
        · rw [show randi true p.1 i2v = p.1 from rfl]
          exact contrib_self_left p.2 p.1 _
      omega

theorem Insert_pairCnt_mono (H : HashFn) (cf : Filter) (e : List Nat)
    (r : Bool) (js : Nat → Nat)
    (hlen4 : ∀ b ∈ cf.Buckets, b.length = bucketSize)
    (hpow : cf.Buckets.length = 2 ^ cf.BucketPow)
    (fp i1 : Nat) (hfp : fp ≠ 0) (h1 : i1 < 2 ^ cf.BucketPow)
    (ht : (cf.Insert H e r js).1 = true) :
    pairCnt fp i1 (getAltIndex H fp i1 cf.BucketPow) cf.Buckets ≤
      pairCnt fp i1 (getAltIndex H fp i1 cf.BucketPow)
        (cf.Insert H e r js).2.Buckets := by
  simp only [Filter.Insert] at ht ⊢
  set p := getIndexAndFingerprint H e cf.BucketPow with hp
  set j2 := getAltIndex H p.2 p.1 cf.BucketPow with hj2
  by_cases hr1 : (cf.insert p.2 p.1).1 = true
  · rw [if_pos hr1] at ht ⊢
    rw [pairCnt_insert_of_true cf p.2 p.1 hr1 fp i1 _ hfp]
    omega
  · rw [if_neg hr1] at ht ⊢
    by_cases hr2 : (cf.insert p.2 j2).1 = true
    · rw [if_pos hr2] at ht ⊢
      rw [pairCnt_insert_of_true cf p.2 j2 hr2 fp i1 _ hfp]
      omega
    · rw [if_neg hr2] at ht ⊢
      have hrandlt : randi r p.1 j2 < cf.Buckets.length := by
        cases r
        · rw [hpow, hj2]
          exact getAltIndex_lt H p.2 p.1 cf.BucketPow
        · rw [hpow]
          exact getIndex_lt H e cf.BucketPow
      rw [reinsert_pairCnt H fp i1 cf.BucketPow hfp h1 maxCuckooCount js cf
        p.2 (randi r p.1 j2) rfl hlen4 hpow hrandlt ht]
      omega

theorem pairCnt_delete (cf : Filter) (fp0 i fp i1 i2 : Nat) (hfp : fp ≠ 0)
    (hcond : fp0 ≠ fp ∨ (i ≠ i1 ∧ i ≠ i2)) :
    pairCnt fp i1 i2 (cf.delete fp0 i).2.Buckets =
      pairCnt fp i1 i2 cf.Buckets := by
  by_cases hb : (bucketDelete (cf.Buckets.getD i []) fp0).1 = true
  · have hlt : i < cf.Buckets.length := by
      by_contra hlt
      rw [List.getD_eq_default _ _ (Nat.le_of_not_lt hlt)] at hb
      simp [bucketDelete] at hb
    rw [delete_eq_pos cf fp0 i hb]
    dsimp only
    have hset := pairCnt_set fp i1 i2 cf.Buckets i
      (bucketDelete (cf.Buckets.getD i []) fp0).2 hlt
    by_cases hpair : i = i1 ∨ i = i2
    · have hff : fp0 ≠ fp := by
        rcases hcond with h | ⟨ha, hb2⟩
        · exact h
        · rcases hpair with h | h
          · exact absurd h ha
          · exact absurd h hb2
      have hcnt := bucketDelete_count (cf.Buckets.getD i []) fp0 fp hb hfp
      rw [if_neg (fun hc => hff hc.symm)] at hcnt
      rw [if_pos hpair, if_pos hpair] at hset
      omega
    · rw [if_neg hpair, if_neg hpair] at hset
      omega
  · rw [delete_eq_neg cf fp0 i hb]

theorem Delete_pairCnt (cf : Filter) (H : HashFn) (e : List Nat)
    (fp i1 : Nat) (hfp : fp ≠ 0)
    (hdel : delOK H fp i1 (getAltIndex H fp i1 cf.BucketPow) cf.BucketPow e) :
    pairCnt fp i1 (getAltIndex H fp i1 cf.BucketPow) (cf.Delete H e).2.Buckets =
      pairCnt fp i1 (getAltIndex H fp i1 cf.BucketPow) cf.Buckets := by
  unfold delOK at hdel
  simp only [Filter.Delete]
  set q := getIndexAndFingerprint H e cf.BucketPow with hq
  set j2 := getAltIndex H q.2 q.1 cf.BucketPow with hj2
  by_cases hr1 : (cf.delete q.2 q.1).1 = true
  · rw [if_pos hr1]
    refine pairCnt_delete cf q.2 q.1 fp i1 _ hfp ?_
    rcases hdel with h | ⟨ha, hb, _, _⟩
    · exact Or.inl h
    · exact Or.inr ⟨ha, hb⟩
  · rw [if_neg hr1]
    refine pairCnt_delete cf q.2 j2 fp i1 _ hfp ?_
    rcases hdel with h | ⟨_, _, hc, hd⟩
    · exact Or.inl h
    · exact Or.inr ⟨hc, hd⟩

/-! ### `BucketPow` is preserved by every operation -/

theorem reinsert_bucketPow (H : HashFn) : ∀ (fuel : Nat) (js : Nat → Nat)
    (cf : Filter) (h i : Nat),
    (cf.reinsert H h i fuel js).2.BucketPow = cf.BucketPow := by
  intro fuel
  induction fuel with
  | zero => intro js cf h i; rfl
  | succ fuel ih =>
    intro js cf h i
    simp only [Filter.reinsert]
    set v := (cf.Buckets.getD i []).getD (js 0 % bucketSize) 0 with hvdef
    set cf2 : Filter :=
      { cf with
        Buckets := cf.Buckets.set i
          ((cf.Buckets.getD i []).set (js 0 % bucketSize) h) } with hcf2
    set i2 := getAltIndex H v i cf.BucketPow with hi2def
    by_cases hr : (cf2.insert v i2).1 = true
    · rw [if_pos hr, insert_bucketPow]
    · rw [if_neg hr, ih]
      rw [insert_bucketPow]

theorem Insert_bucketPow (cf : Filter) (H : HashFn) (data : List Nat)
    (r : Bool) (js : Nat → Nat) :
    (cf.Insert H data r js).2.BucketPow = cf.BucketPow := by
  simp only [Filter.Insert]
  set p := getIndexAndFingerprint H data cf.BucketPow with hp
  set j2 := getAltIndex H p.2 p.1 cf.BucketPow with hj2
  by_cases hr1 : (cf.insert p.2 p.1).1 = true
  · rw [if_pos hr1, insert_bucketPow]
  · rw [if_neg hr1]
    by_cases hr2 : (cf.insert p.2 j2).1 = true
    · rw [if_pos hr2, insert_bucketPow]
    · rw [if_neg hr2, reinsert_bucketPow]

theorem InsertUnique_bucketPow (cf : Filter) (H : HashFn) (data : List Nat)
    (r : Bool) (js : Nat → Nat) :
    (cf.InsertUnique H data r js).2.BucketPow = cf.BucketPow := by
  unfold Filter.InsertUnique
  by_cases hl : cf.Lookup H data
  · rw [if_pos hl]
  · rw [if_neg hl, Insert_bucketPow]

theorem Delete_bucketPow (cf : Filter) (H : HashFn) (data : List Nat) :
    (cf.Delete H data).2.BucketPow = cf.BucketPow := by
  simp only [Filter.Delete]
  set p := getIndexAndFingerprint H data cf.BucketPow with hp
  set j2 := getAltIndex H p.2 p.1 cf.BucketPow with hj2
  by_cases hr1 : (cf.delete p.2 p.1).1 = true
  · rw [if_pos hr1, delete_bucketPow]
  · rw [if_neg hr1, delete_bucketPow]

theorem applyOp_bucketPow (H : HashFn) (f : Filter) (op : Op) :
    (applyOp H f op).BucketPow = f.BucketPow := by
  cases op with
  | ins d r js => exact Insert_bucketPow f H d r js
  | insU d r js => exact InsertUnique_bucketPow f H d r js
  | del d => exact Delete_bucketPow f H d
  | reset => rfl

theorem applyOps_bucketPow (H : HashFn) : ∀ (ops : List Op) (g : Filter),
    (applyOps H g ops).BucketPow = g.BucketPow := by
  intro ops
  induction ops with
  | nil => intro g; rfl
  | cons op rest ih =>
    intro g
    show (applyOps H (applyOp H g op) rest).BucketPow = g.BucketPow
    rw [ih, applyOp_bucketPow]

theorem InsertUnique_eq_of_lookup (cf : Filter) (H : HashFn) (data : List Nat)
    (r : Bool) (js : Nat → Nat) (hl : cf.Lookup H data = true) :
    cf.InsertUnique H data r js = (false, cf) := by
  unfold Filter.InsertUnique
  rw [if_pos hl]

theorem InsertUnique_eq_insert (cf : Filter) (H : HashFn) (data : List Nat)
    (r : Bool) (js : Nat → Nat) (hl : ¬ cf.Lookup H data = true) :
    cf.InsertUnique H data r js = cf.Insert H data r js := by
  unfold Filter.InsertUnique
  rw [if_neg hl]

theorem lookup_of_pairCnt (H : HashFn) (g : Filter) (d : List Nat)
    (hge : 1 ≤ pairCnt (getIndexAndFingerprint H d g.BucketPow).2
      (getIndexAndFingerprint H d g.BucketPow).1
      (getAltIndex H (getIndexAndFingerprint H d g.BucketPow).2
        (getIndexAndFingerprint H d g.BucketPow).1 g.BucketPow) g.Buckets) :
    g.Lookup H d = true := by
  apply Lookup_true_of_mem
  set p := getIndexAndFingerprint H d g.BucketPow with hp
  set j2 := getAltIndex H p.2 p.1 g.BucketPow with hj2
  rw [pairCnt_eq] at hge
  by_cases h21 : j2 = p.1
  · rw [if_pos h21] at hge
    left
    by_contra hmem
    have := List.count_eq_zero.2 hmem
    omega
  · rw [if_neg h21] at hge
    by_cases hmem1 : p.2 ∈ g.Buckets.getD p.1 []
    · exact Or.inl hmem1
    · right
      by_contra hmem2
      have e1 := List.count_eq_zero.2 hmem1
      have e2 := List.count_eq_zero.2 hmem2
      omega

theorem safeSuffix_pairCnt (H : HashFn) (fp i1 pow0 : Nat) (hfp : fp ≠ 0)
    (h1 : i1 < 2 ^ pow0) : ∀ (ops : List Op) (g : Filter),
    g.WF → g.BucketPow = pow0 →
    1 ≤ pairCnt fp i1 (getAltIndex H fp i1 pow0) g.Buckets →
    safeSuffix H fp i1 (getAltIndex H fp i1 pow0) g ops →
    1 ≤ pairCnt fp i1 (getAltIndex H fp i1 pow0) (applyOps H g ops).Buckets := by
  intro ops
  induction ops with
  | nil =>
    intro g _ _ hge _
    exact hge
  | cons op rest ih =>
    intro g hwf hbp hge hsafe
    obtain ⟨hop, hrest⟩ := hsafe
    show 1 ≤ pairCnt fp i1 (getAltIndex H fp i1 pow0)
      (applyOps H (applyOp H g op) rest).Buckets
    have hwf2 := applyOp_WF H g op hwf
    have hbp2 : (applyOp H g op).BucketPow = pow0 := by
      rw [applyOp_bucketPow, hbp]
    refine ih (applyOp H g op) hwf2 hbp2 ?_ hrest
    obtain ⟨hlen4, hpow, _⟩ := hwf
    rw [← hbp] at hge ⊢
    rw [← hbp] at h1
    cases op with
    | ins e r js =>
      have hins : (g.Insert H e r js).1 = true := hop
      exact le_trans hge
        (Insert_pairCnt_mono H g e r js hlen4 hpow fp i1 hfp h1 hins)
    | insU e r js =>
      by_cases hl : g.Lookup H e = true
      · show 1 ≤ pairCnt fp i1 _ (g.InsertUnique H e r js).2.Buckets
        rw [InsertUnique_eq_of_lookup g H e r js hl]
        exact hge
      · have hins : (g.Insert H e r js).1 = true := by
          rcases hop with h | h
          · exact absurd h hl
          · exact h
        show 1 ≤ pairCnt fp i1 _ (g.InsertUnique H e r js).2.Buckets
        rw [InsertUnique_eq_insert g H e r js hl]
        exact le_trans hge
          (Insert_pairCnt_mono H g e r js hlen4 hpow fp i1 hfp h1 hins)
    | del e =>
      have hdel : delOK H fp i1 (getAltIndex H fp i1 pow0) g.BucketPow e := hop
      rw [← hbp] at hdel
      show 1 ≤ pairCnt fp i1 _ (g.Delete H e).2.Buckets
      rw [Delete_pairCnt g H e fp i1 hfp hdel]
      exact hge
    | reset => cases hop

/-! ### Claim theorems: no false negatives -/

/-- Counterexample to C1 as stated: with one hash instance the distinct
inputs `[0]` and `[1]` collide on fingerprint 1 and primary bucket 0.
`Insert [0]` succeeds (no eviction chain runs at all), no `Delete([0])` ever
occurs, yet after `Delete([1])` — a delete of a different input — the lookup
of `[0]` answers false. -/
theorem insert_lookup_cex :
    ([0] : List Nat) ≠ [1] ∧
    ((NewFilter 1).Insert H1 [0] true js0).1 = true ∧
    (((NewFilter 1).Insert H1 [0] true js0).2.Delete H1 [1]).1 = true ∧
    (((NewFilter 1).Insert H1 [0] true js0).2.Delete H1 [1]).2.Lookup H1 [0] =
      false := by
  refine ⟨by decide, by decide, by decide, by decide⟩

/-- C1 as amended.  No false negatives: if `Insert(d)` returns true on a
reachable filter, then after any further sequence of operations in which no
`Reset` occurs, every `Insert` succeeds (a failed insert can displace a
fingerprint out of existence, with no rollback), every `InsertUnique` either
short-circuits or succeeds, and no `Delete` of data colliding with `d`
(same fingerprint and an overlapping candidate pair) occurs, `Lookup(d)`
returns true — in particular immediately after the successful insert
(`ops = []`). -/
theorem insert_then_lookup (H : HashFn) (f : Filter) (d : List Nat)
    (r : Bool) (js : Nat → Nat) (ops : List Op) (hreach : Reachable H f)
    (hins : (f.Insert H d r js).1 = true)
    (hsafe : safeSuffix H (getIndexAndFingerprint H d f.BucketPow).2
      (getIndexAndFingerprint H d f.BucketPow).1
      (getAltIndex H (getIndexAndFingerprint H d f.BucketPow).2
        (getIndexAndFingerprint H d f.BucketPow).1 f.BucketPow)
      (f.Insert H d r js).2 ops) :
    (applyOps H (f.Insert H d r js).2 ops).Lookup H d = true := by
  obtain ⟨hlen4, hpow, hcount⟩ := Reachable_WF H f hreach
  have hfp : (getIndexAndFingerprint H d f.BucketPow).2 ≠ 0 :=
    getIndexAndFingerprint_snd_ne_zero H d f.BucketPow
  have h1 : (getIndexAndFingerprint H d f.BucketPow).1 < 2 ^ f.BucketPow :=
    getIndex_lt H d f.BucketPow
  have hstart := Insert_pairCnt_self H f d r js hlen4 hpow hins
  have hwf1 : (f.Insert H d r js).2.WF := Insert_WF f H d r js ⟨hlen4, hpow, hcount⟩
  have hbp1 : (f.Insert H d r js).2.BucketPow = f.BucketPow :=
    Insert_bucketPow f H d r js
  have hfinal := safeSuffix_pairCnt H
    (getIndexAndFingerprint H d f.BucketPow).2
    (getIndexAndFingerprint H d f.BucketPow).1
    f.BucketPow hfp h1 ops (f.Insert H d r js).2 hwf1 hbp1 hstart hsafe
  have hbpf : (applyOps H (f.Insert H d r js).2 ops).BucketPow = f.BucketPow := by
    rw [applyOps_bucketPow, hbp1]
  apply lookup_of_pairCnt
  rw [hbpf]
  exact hfinal

/-- Witness for the amended C1: a successful insert into `NewFilter 4`
followed by the empty suffix; the lookup answers true. -/
theorem insert_then_lookup_witness :
    ((NewFilter 4).Insert H0 [0] true js0).1 = true ∧
    (applyOps H0 ((NewFilter 4).Insert H0 [0] true js0).2 []).Lookup H0 [0] =
      true :=
  ⟨by decide,
    insert_then_lookup H0 (NewFilter 4) [0] true js0 [] (Reachable.new 4)
      (by decide) trivial⟩

end Cuckoo
